import Mathlib

/-! # gdipp glyph cache: a shallow embedding of `gdipp_server/glyph_cache.cpp`

The development models the server-side glyph cache of gdipp:

* `get_char_id`, the bit packing of a glyph identity;
* the glyph store (`lookup_glyph` / `store_glyph`), a map from glyph identity to a
  one-time-initialisation cell;
* the glyph-run store (`lookup_glyph_run` / `store_glyph_run`), a two-level map bounded by an
  LRU index over string identities;
* `initialize`, which sets the capacity of the LRU index, and the destructor, which releases
  what the cache owns.

Machine integers are natural numbers with explicit reduction modulo `2 ^ 64` where the C++
arithmetic can overflow (a two's complement 32-bit `int` for the shift of `initialize`).
`std::map` is an association list with insert-if-absent semantics.  Pointers to heap objects
(`glyph_run *`, `FT_Glyph`) are object identities; a nullable pointer result is an `Option`.

The embedding is sequential: one call runs at a time.  The behaviour of concurrent callers
(the single-flight property of `lookup_glyph`) is outside it; what remains of it in a sequential
run is that a lookup of a pending slot does not return.
-/

namespace gdipp

/-! ## Identifiers -/

/-- The 128-bit integer of gdipp, a `std::pair` of two 64-bit words: `fst` is `first` (the low
64 bits), `snd` is `second` (the high 64 bits). -/
abbrev uint128_t := Nat × Nat

/-- A value is a well-formed `uint128_t` when both words fit in 64 bits. -/
def uint128_t.wf (x : uint128_t) : Prop := x.1 < 2 ^ 64 ∧ x.2 < 2 ^ 64

abbrev string_id_type := uint128_t

abbrev char_id_type := uint128_t

/-- Identity of a heap-allocated `glyph_run` object (a non-null `glyph_run *`). -/
abbrev glyph_run := Nat

/-- Identity of a rendered glyph (a non-null `FT_Glyph`). -/
abbrev FT_Glyph := Nat

/-- The program's `glyph_cache::get_char_id`:
`char_id = render_trait;
 char_id.second = (char_id.second << 33) | (uint64_t(is_glyph_index) << 32) | index;`
The left shift of the 64-bit word `second` is reduced modulo `2 ^ 64`. -/
def get_char_id (render_trait : uint128_t) (index : Nat) (is_glyph_index : Bool) : char_id_type :=
  (render_trait.1,
    ((render_trait.2 <<< 33) % 2 ^ 64) ||| (is_glyph_index.toNat <<< 32) ||| index)

/-! ## `std::map` -/

/-- The C++ `std::map<K, V>`, as an association list: at most one entry per key is ever
inserted, and the newest key comes first.  A `std::map` iterates in key order instead; the
program depends on the iteration order only for the order in which the runs of one evicted
string are deleted. -/
abbrev std_map (K V : Type) := List (K × V)

/-- The C++ `std::map::find`: the value stored under `k`, if any. -/
def map_find {K V : Type} [DecidableEq K] : std_map K V → K → Option V
  | [], _ => none
  | (k1, v) :: m, k => if k1 = k then some v else map_find m k

/-- The C++ `std::map::insert`: adds `(k, v)` only when `k` has no entry; the flag tells whether
the insertion took place. -/
def map_insert {K V : Type} [DecidableEq K] (m : std_map K V) (k : K) (v : V) :
    std_map K V × Bool :=
  match map_find m k with
  | some _ => (m, false)
  | none => ((k, v) :: m, true)

/-- The C++ `std::map::erase` of the entry found under `k`. -/
def map_erase {K V : Type} [DecidableEq K] (m : std_map K V) (k : K) : std_map K V :=
  m.filter (fun p => decide (p.1 ≠ k))

/-- In-place update of the value stored under `k` (assignment through an iterator). -/
def map_set {K V : Type} [DecidableEq K] : std_map K V → K → V → std_map K V
  | [], _, _ => []
  | (k1, v1) :: m, k, v => if k1 = k then (k1, v) :: m else (k1, v1) :: map_set m k v

/-! ## The bounded LRU index -/

/-- Modelled from the spec: the Bounded LRU Index (`lru_list` of `gdipp_lib`, whose source is not
part of the translated files).  It has a fixed capacity and keeps the tracked identifiers in
recency order; `_access_list` holds the most recently offered identifier first. -/
structure lru_list where
  _capacity : Nat
  _access_list : List string_id_type
  deriving DecidableEq, Repr

/-- Modelled from the spec: `lru_list::resize`, which fixes the capacity. -/
def lru_list.resize (l : lru_list) (new_capacity : Nat) : lru_list :=
  { l with _capacity := new_capacity }

/-- Modelled from the spec: `lru_list::access` ("offer").  It inserts or touches `data`; if the
index was at capacity and `data` was not already tracked, it evicts and returns the least
recently offered identifier; otherwise it returns none. -/
def lru_list.access (l : lru_list) (data : string_id_type) :
    lru_list × Option string_id_type :=
  if data ∈ l._access_list then
    ({ l with _access_list := data :: l._access_list.erase data }, none)
  else if l._access_list.length = l._capacity then
    match l._access_list.getLast? with
    | some erased => ({ l with _access_list := data :: l._access_list.dropLast }, some erased)
    | none => ({ l with _access_list := data :: l._access_list }, none)
  else
    ({ l with _access_list := data :: l._access_list }, none)

/-! ## One-time initialisation cells -/

/-- The Windows one-time initialisation cell `INIT_ONCE`, as used in synchronous mode: it is
uninitialised (after `InitOnceInitialize`, or after a failed initialisation), or an
initialisation has begun and not completed, or it is complete and holds the published context
pointer. -/
inductive INIT_ONCE where
  | uninitialized
  | pending
  | complete (context : Option FT_Glyph)
  deriving DecidableEq, Repr

/-- The Windows call `InitOnceBeginInitialize(once, 0, &pending, &context)` in a sequential run.
On an uninitialised cell it starts the initialisation and reports `pending = TRUE`; on a complete
cell it reports `pending = FALSE` and the stored context.  On a cell whose initialisation is in
progress the call waits for the initialiser, which in a sequential run never returns: `none`. -/
def InitOnceBeginInitialize : INIT_ONCE → Option (INIT_ONCE × Bool × Option FT_Glyph)
  | INIT_ONCE.uninitialized => some (INIT_ONCE.pending, true, none)
  | INIT_ONCE.pending => none
  | INIT_ONCE.complete context => some (INIT_ONCE.complete context, false, context)

/-- The Windows call `InitOnceComplete(once, flags, context)` with `flags` either
`INIT_ONCE_INIT_FAILED` (`init_failed = true`) or `0`.  It succeeds only on a cell whose
initialisation is in progress: a successful completion publishes `context`, a failed one returns
the cell to the uninitialised state (and must not carry a context).  On any other cell the call
fails and leaves the cell as it is.  The flag returned is the `BOOL` result of the call. -/
def InitOnceComplete (once : INIT_ONCE) (init_failed : Bool) (context : Option FT_Glyph) :
    INIT_ONCE × Bool :=
  match once with
  | INIT_ONCE.pending =>
    if init_failed then
      (if context.isNone then (INIT_ONCE.uninitialized, true) else (INIT_ONCE.pending, false))
    else (INIT_ONCE.complete context, true)
  | other => (other, false)

/-! ## The cache -/

abbrev trait_to_run_map := std_map uint128_t glyph_run

/-- The data members of `glyph_cache`.  The field `deleted` is a ghost record of the heap: the
`glyph_run` objects on which the cache has executed `delete`, in order of execution. -/
structure glyph_cache where
  _glyph_store : std_map char_id_type INIT_ONCE
  _glyph_run_store : std_map string_id_type trait_to_run_map
  _glyph_run_lru : lru_list
  deleted : List glyph_run
  deriving DecidableEq, Repr

/-- A freshly constructed cache whose LRU index has been resized to `capacity`. -/
def glyph_cache.create (capacity : Nat) : glyph_cache :=
  { _glyph_store := []
    _glyph_run_store := []
    _glyph_run_lru := lru_list.resize { _capacity := 0, _access_list := [] } capacity
    deleted := [] }

/-- The program's `glyph_cache::lookup_glyph`.  The slot of `char_id` is created (uninitialised)
when it does not exist; then `InitOnceBeginInitialize` is called on it and the glyph pointer it
yields is returned (`none` is the C++ `NULL`).  The two `assert`s of the source are checked; a
failed assertion, or a call that never returns, gives `none`. -/
def lookup_glyph (g : glyph_cache) (char_id : char_id_type) :
    Option (glyph_cache × Option FT_Glyph) :=
  let found : Option (std_map char_id_type INIT_ONCE × INIT_ONCE) :=
    match map_find g._glyph_store char_id with
    | some once => some (g._glyph_store, once)
    | none =>
      let insert_ret := map_insert g._glyph_store char_id INIT_ONCE.uninitialized
      if insert_ret.2 then some (insert_ret.1, INIT_ONCE.uninitialized) else none
  match found with
  | none => none
  | some (store, once) =>
    match InitOnceBeginInitialize once with
    | none => none
    | some (once1, pending, glyph) =>
      if glyph.isNone = pending then
        some ({ g with _glyph_store := map_set store char_id once1 }, glyph)
      else none

/-- The program's `glyph_cache::store_glyph`.  The slot of `char_id` is looked up and completed
with `InitOnceComplete`, whose result is ignored; the function returns `glyph != NULL`.  When
`char_id` has no slot the source dereferences the end iterator: `none`. -/
def store_glyph (g : glyph_cache) (char_id : char_id_type) (glyph : Option FT_Glyph) :
    Option (glyph_cache × Bool) :=
  match map_find g._glyph_store char_id with
  | none => none
  | some once =>
    let completed := InitOnceComplete once glyph.isNone glyph
    some ({ g with _glyph_store := map_set g._glyph_store char_id completed.1 }, glyph.isSome)

/-- The program's `glyph_cache::lookup_glyph_run`, a `const` member function: the run stored
under `(string_id, render_trait)`, or `none` for the C++ `NULL`. -/
def lookup_glyph_run (g : glyph_cache) (string_id : string_id_type) (render_trait : uint128_t) :
    Option glyph_run :=
  match map_find g._glyph_run_store string_id with
  | none => none
  | some traits => map_find traits render_trait

/-- The program's `glyph_cache::store_glyph_run`.  The string is offered to the LRU index; when
the index reports an eviction, the trait map of the evicted string is looked up (the source
asserts that it is found: `none` when it is not), every run in it is deleted and the entry is
erased.  Then an empty trait map is inserted under `string_id` unless one exists, and
`(render_trait, a_glyph_run)` is inserted into the trait map of `string_id` unless the trait has
an entry.  The result is the flag of the last insertion.  The argument `a_glyph_run` points to a
run allocated by the caller, so it is not `NULL`. -/
def store_glyph_run (g : glyph_cache) (string_id : string_id_type) (render_trait : uint128_t)
    (a_glyph_run : glyph_run) : Option (glyph_cache × Bool) :=
  let access_ret := g._glyph_run_lru.access string_id
  let evicted : Option (std_map string_id_type trait_to_run_map × List glyph_run) :=
    match access_ret.2 with
    | none => some (g._glyph_run_store, g.deleted)
    | some erased_str =>
      match map_find g._glyph_run_store erased_str with
      | none => none
      | some traits =>
        some (map_erase g._glyph_run_store erased_str, g.deleted ++ traits.map Prod.snd)
  match evicted with
  | none => none
  | some (store, deleted) =>
    let str_insert_ret := map_insert store string_id []
    let traits := (map_find str_insert_ret.1 string_id).getD []
    let trait_insert_ret := map_insert traits render_trait a_glyph_run
    some ({ g with
            _glyph_run_store := map_set str_insert_ret.1 string_id trait_insert_ret.1
            _glyph_run_lru := access_ret.1
            deleted := deleted },
          trait_insert_ret.2)

/-! ## Calls and reachable states -/

/-- A call of one of the four public operations of the cache. -/
inductive cache_call where
  | lookup_glyph (char_id : char_id_type)
  | store_glyph (char_id : char_id_type) (glyph : Option FT_Glyph)
  | lookup_glyph_run (string_id : string_id_type) (render_trait : uint128_t)
  | store_glyph_run (string_id : string_id_type) (render_trait : uint128_t)
      (a_glyph_run : glyph_run)
  deriving DecidableEq, Repr

/-- What a call returns to its caller. -/
inductive call_result where
  | glyph (g : Option FT_Glyph)
  | stored (b : Bool)
  | run (r : Option glyph_run)
  deriving DecidableEq, Repr

/-- One call on the cache: the state after the call and the value returned, or `none` when the
call does not return normally. -/
def call (g : glyph_cache) : cache_call → Option (glyph_cache × call_result)
  | cache_call.lookup_glyph char_id =>
    (lookup_glyph g char_id).map (fun p => (p.1, call_result.glyph p.2))
  | cache_call.store_glyph char_id glyph =>
    (store_glyph g char_id glyph).map (fun p => (p.1, call_result.stored p.2))
  | cache_call.lookup_glyph_run string_id render_trait =>
    some (g, call_result.run (lookup_glyph_run g string_id render_trait))
  | cache_call.store_glyph_run string_id render_trait a_glyph_run =>
    (store_glyph_run g string_id render_trait a_glyph_run).map
      (fun p => (p.1, call_result.stored p.2))

/-- A sequence of calls, run in order; `none` as soon as one of them does not return. -/
def calls (g : glyph_cache) : List cache_call → Option glyph_cache
  | [] => some g
  | c :: cs =>
    match call g c with
    | none => none
    | some (g1, _) => calls g1 cs

/-- The states a cache of LRU capacity `C` can be in: the state after creation, and every state
that a returning call produces from a reachable state. -/
inductive Reachable (C : Nat) : glyph_cache → Prop where
  | create : Reachable C (glyph_cache.create C)
  | step {g g1 : glyph_cache} {c : cache_call} {res : call_result} :
      Reachable C g → call g c = some (g1, res) → Reachable C g1

/-- Consistency of the glyph-run store with the LRU index of capacity `C`: the index tracks
pairwise distinct identifiers, these are exactly the keys of the run store, every stored trait map
is non-empty, and (for `C ≥ 1`) at most `C` identifiers are tracked. -/
structure run_cache_inv (C : Nat) (g : glyph_cache) : Prop where
  capacity : g._glyph_run_lru._capacity = C
  nodup : g._glyph_run_lru._access_list.Nodup
  keys : ∀ s, s ∈ g._glyph_run_lru._access_list ↔ map_find g._glyph_run_store s ≠ none
  nonempty : ∀ s m, map_find g._glyph_run_store s = some m → m ≠ []
  bounded : 1 ≤ C → g._glyph_run_lru._access_list.length ≤ C

/-- The identifiers evicted, call by call, by a sequence of `store_glyph_run` calls run in order
from `g` (for each call, what the LRU index reported); `none` when a call does not return. -/
def evictions (g : glyph_cache) :
    List (string_id_type × uint128_t × glyph_run) → Option (List (Option string_id_type))
  | [] => some []
  | (s, t, r) :: rest =>
    match store_glyph_run g s t r with
    | none => none
    | some (g1, _) =>
      (evictions g1 rest).map (fun l => (g._glyph_run_lru.access s).2 :: l)

/-- The runs of `l` stored in order by `store_glyph_run`, each under the trait `t0`; `none` when
a call does not return. -/
def store_runs (g : glyph_cache) (t0 : uint128_t) :
    List (string_id_type × glyph_run) → Option glyph_cache
  | [] => some g
  | (s, r) :: rest =>
    match store_glyph_run g s t0 r with
    | none => none
    | some (g1, _) => store_runs g1 t0 rest

/-- The string identifiers that a sequence of calls offers to the LRU index, oldest first: one
for each `store_glyph_run` call. -/
def offers : List cache_call → List string_id_type
  | [] => []
  | cache_call.store_glyph_run s _ _ :: cs => s :: offers cs
  | cache_call.lookup_glyph _ :: cs => offers cs
  | cache_call.store_glyph _ _ :: cs => offers cs
  | cache_call.lookup_glyph_run _ _ :: cs => offers cs

/-- The distinct identifiers of a history of offers (oldest first), ordered by their latest
offer, most recently offered first. -/
def recency (history : List string_id_type) : List string_id_type :=
  history.foldl (fun acc x => x :: acc.erase x) []

/-- A sample state: capacity 1, the run `101` stored for string `(1, 0)` under trait `(0, 0)`. -/
def sample_cache_1 : glyph_cache :=
  { _glyph_store := []
    _glyph_run_store := [((1, 0), [((0, 0), 101)])]
    _glyph_run_lru := { _capacity := 1, _access_list := [(1, 0)] }
    deleted := [] }

/-- A sample state: `sample_cache_1` after the run `102` has been stored for string `(2, 0)`,
which evicted string `(1, 0)` and deleted its run. -/
def sample_cache_2 : glyph_cache :=
  { _glyph_store := []
    _glyph_run_store := [((2, 0), [((0, 0), 102)])]
    _glyph_run_lru := { _capacity := 1, _access_list := [(2, 0)] }
    deleted := [101] }

/-- Five runs for five distinct strings, in storing order. -/
def sample_runs : List (string_id_type × glyph_run) :=
  [((1, 0), 101), ((2, 0), 102), ((3, 0), 103), ((4, 0), 104), ((5, 0), 105)]

/-- A sample state: capacity 1, the slot of glyph `(9, 9)` is reserved and its initialisation is
in progress. -/
def sample_pending : glyph_cache :=
  { _glyph_store := [((9, 9), INIT_ONCE.pending)]
    _glyph_run_store := []
    _glyph_run_lru := { _capacity := 1, _access_list := [] }
    deleted := [] }

/-- A sample state: `sample_pending` after the initialisation of the slot has failed. -/
def sample_failed : glyph_cache :=
  { _glyph_store := [((9, 9), INIT_ONCE.uninitialized)]
    _glyph_run_store := []
    _glyph_run_lru := { _capacity := 1, _access_list := [] }
    deleted := [] }

/-- A sample state: capacity 1, the slot of glyph `(9, 9)` is complete and holds glyph `500`. -/
def sample_complete : glyph_cache :=
  { _glyph_store := [((9, 9), INIT_ONCE.complete (some 500))]
    _glyph_run_store := []
    _glyph_run_lru := { _capacity := 1, _access_list := [] }
    deleted := [] }

/-- A sequence of `store_glyph_run` calls run in order from `g`: the final state and the flags
returned, call by call; `none` when a call does not return. -/
def store_calls (g : glyph_cache) :
    List (string_id_type × uint128_t × glyph_run) → Option (glyph_cache × List Bool)
  | [] => some (g, [])
  | (s, t, r) :: rest =>
    match store_glyph_run g s t r with
    | none => none
    | some (g1, b) =>
      match store_calls g1 rest with
      | none => none
      | some (g2, flags) => some (g2, b :: flags)

/-- Three stores: two strings, the first of them under two traits. -/
def sample_stores : List (string_id_type × uint128_t × glyph_run) :=
  [((1, 0), (0, 0), 101), ((1, 0), (7, 7), 102), ((2, 0), (0, 0), 103)]

/-- Whether a call is one of the two operations of the glyph-run cache. -/
def is_run_call : cache_call → Bool
  | cache_call.lookup_glyph_run _ _ => true
  | cache_call.store_glyph_run _ _ _ => true
  | cache_call.lookup_glyph _ => false
  | cache_call.store_glyph _ _ => false

/-- The string identifiers that have at least one retrievable run, each listed once: the keys of
the run store whose trait map is not empty. -/
def occupied (g : glyph_cache) : List string_id_type :=
  ((g._glyph_run_store.map Prod.fst).dedup).filter
    (fun s => match map_find g._glyph_run_store s with
      | some (_ :: _) => true
      | _ => false)

/-- The number of distinct string identifiers that have at least one retrievable run. -/
def occupancy (g : glyph_cache) : Nat := (occupied g).length

/-- A short sequence of glyph-run calls on four strings. -/
def sample_run_calls : List cache_call :=
  [cache_call.store_glyph_run (1, 0) (0, 0) 101, cache_call.store_glyph_run (2, 0) (0, 0) 102,
    cache_call.lookup_glyph_run (1, 0) (0, 0), cache_call.store_glyph_run (3, 0) (0, 0) 103,
    cache_call.store_glyph_run (1, 0) (7, 7) 104, cache_call.store_glyph_run (4, 0) (0, 0) 105]

/-- Runs stored in order by `store_glyph_run` under one string `s`, one for each trait of `vs`;
`none` when a call does not return. -/
def store_variants (g : glyph_cache) (s : string_id_type) :
    List (uint128_t × glyph_run) → Option glyph_cache
  | [] => some g
  | (t, r) :: rest =>
    match store_glyph_run g s t r with
    | none => none
    | some (g1, _) => store_variants g1 s rest

/-- Three runs under three distinct traits. -/
def sample_variants : List (uint128_t × glyph_run) :=
  [((1, 1), 201), ((2, 2), 202), ((3, 3), 203)]

/-- A sample state: capacity 2, full; string `(1, 0)` is the least recently offered, string
`(2, 0)` the most recently offered. -/
def sample_cache_3 : glyph_cache :=
  { _glyph_store := []
    _glyph_run_store := [((2, 0), [((0, 0), 102)]), ((1, 0), [((0, 0), 101)])]
    _glyph_run_lru := { _capacity := 2, _access_list := [(2, 0), (1, 0)] }
    deleted := [] }

/-- The C++ expression `1 << n` on the 32-bit `int` of the target: the bit pattern of `1` shifted
left by `n` positions, read as a two's complement number.  A shift by 32 or more positions is
undefined: `none`. -/
def shl_one_int (n : Nat) : Option Int :=
  if n < 32 then
    (if (1 <<< n) % 2 ^ 32 < 2 ^ 31 then some (((1 <<< n) % 2 ^ 32 : Nat) : Int)
     else some ((((1 <<< n) % 2 ^ 32 : Nat) : Int) - 2 ^ 32))
  else none

/-- The Windows macro `min(a, b)`, which expands to `((a) < (b)) ? (a) : (b)`, on `int`. -/
def min_int (a b : Int) : Int := if a < b then a else b

/-- The conversion of an `int` to the 32-bit `unsigned int` capacity that `resize` takes. -/
def to_unsigned_int (x : Int) : Nat := (x % 2 ^ 32).toNat

/-- The program's `glyph_cache::initialize`:
`_glyph_run_lru.resize(min(1 << server_cache_size, 16777216))`.  The global `server_cache_size`
(the configured log2 of the cache size) is a parameter. -/
def glyph_cache_initialise (g : glyph_cache) (server_cache_size : Nat) : Option glyph_cache :=
  match shl_one_int server_cache_size with
  | none => none
  | some shifted =>
    some { g with _glyph_run_lru :=
            (g._glyph_run_lru.resize (to_unsigned_int (min_int shifted 16777216))) }

/-- The Windows call `InitOnceBeginInitialize(once, INIT_ONCE_CHECK_ONLY, &pending, &context)`:
on a complete cell it succeeds and yields the stored context; on any other cell it fails and
sets neither output. -/
def InitOnceCheckOnly : INIT_ONCE → Option (Option FT_Glyph)
  | INIT_ONCE.complete context => some context
  | INIT_ONCE.uninitialized => none
  | INIT_ONCE.pending => none

/-- The first loop of the destructor: for every slot of the glyph store, the context of the cell
is read with `INIT_ONCE_CHECK_ONLY` and passed to `FT_Done_Glyph` (which does nothing on `NULL`).
The result lists the glyphs released.  On a cell that is not complete the local `glyph` is left
uninitialised and the call is undefined: `none`. -/
def done_glyphs : std_map char_id_type INIT_ONCE → Option (List FT_Glyph)
  | [] => some []
  | (_, once) :: rest =>
    match InitOnceCheckOnly once with
    | none => none
    | some glyph =>
      match done_glyphs rest with
      | none => none
      | some released => some (glyph.toList ++ released)

/-- The runs held by a run store, in iteration order: for every string, the runs of its trait
map. -/
def stored_runs (m : std_map string_id_type trait_to_run_map) : List glyph_run :=
  m.flatMap (fun p => p.2.map Prod.snd)

/-- The program's destructor `glyph_cache::~glyph_cache`: the glyphs of the glyph store are
released, then every run of every trait map of the run store is deleted.  The result is the list
of glyphs released and the complete record of the runs deleted by the cache, those deleted by
evictions first. -/
def glyph_cache.destroy (g : glyph_cache) : Option (List FT_Glyph × List glyph_run) :=
  match done_glyphs g._glyph_store with
  | none => none
  | some released => some (released, g.deleted ++ stored_runs g._glyph_run_store)

/-- The runs passed to the calls of a sequence of stores that returned true (`flags` are the
values returned, call by call). -/
def adopted : List (string_id_type × uint128_t × glyph_run) → List Bool → List glyph_run
  | (_, _, r) :: l, true :: flags => r :: adopted l flags
  | _ :: l, false :: flags => adopted l flags
  | [], _ => []
  | _ :: _, [] => []

/-- The runs passed to the calls of a sequence of stores that returned false. -/
def rejected : List (string_id_type × uint128_t × glyph_run) → List Bool → List glyph_run
  | (_, _, r) :: l, false :: flags => r :: rejected l flags
  | _ :: l, true :: flags => rejected l flags
  | [], _ => []
  | _ :: _, [] => []

/-- Five stores of distinct runs into a cache: a duplicate key in third place, and two strings
after the first one. -/
def sample_stores_2 : List (string_id_type × uint128_t × glyph_run) :=
  [((1, 0), (0, 0), 101), ((1, 0), (7, 7), 102), ((1, 0), (0, 0), 103),
    ((2, 0), (0, 0), 104), ((3, 0), (0, 0), 105)]

/-! # Theorems -/

/-! ## Glyph identities -/

theorem shift33_mod (hi : Nat) : (hi <<< 33) % 2 ^ 64 = 2 ^ 33 * (hi % 2 ^ 31) := by
  rw [Nat.shiftLeft_eq]
  omega

/-- The high word of a glyph identity as a sum of three disjoint fields. -/
theorem get_char_id_snd (render_trait : uint128_t) (index : Nat) (is_glyph_index : Bool)
    (hindex : index < 2 ^ 32) :
    (get_char_id render_trait index is_glyph_index).2
      = 2 ^ 33 * (render_trait.2 % 2 ^ 31) + 2 ^ 32 * is_glyph_index.toNat + index := by
  have hflag : is_glyph_index.toNat * 2 ^ 32 < 2 ^ 33 := by
    cases is_glyph_index <;> simp
  have h1 : 2 ^ 33 * (render_trait.2 % 2 ^ 31) ||| is_glyph_index.toNat * 2 ^ 32
      = 2 ^ 32 * (2 * (render_trait.2 % 2 ^ 31) + is_glyph_index.toNat) := by
    rw [← Nat.mul_add_lt_is_or hflag]
    omega
  show ((render_trait.2 <<< 33) % 2 ^ 64 ||| is_glyph_index.toNat <<< 32 ||| index) = _
  rw [shift33_mod, Nat.shiftLeft_eq, h1, ← Nat.mul_add_lt_is_or hindex]
  omega

theorem get_char_id_fst (render_trait : uint128_t) (index : Nat) (is_glyph_index : Bool) :
    (get_char_id render_trait index is_glyph_index).1 = render_trait.1 := rfl

theorem toNat_lt_two (b : Bool) : b.toNat < 2 := by
  cases b <;> simp

theorem toNat_inj {a b : Bool} (h : a.toNat = b.toNat) : a = b := by
  cases a <;> cases b <;> simp_all

/-! ## Lemmas on `std::map` -/

section map_lemmas

variable {K V : Type} [DecidableEq K]

@[simp] theorem map_find_nil (k : K) : map_find ([] : std_map K V) k = none := rfl

theorem map_find_cons (k1 k : K) (v : V) (m : std_map K V) :
    map_find ((k1, v) :: m) k = if k1 = k then some v else map_find m k := rfl

theorem map_find_insert (m : std_map K V) (k k1 : K) (v : V) :
    map_find (map_insert m k v).1 k1
      = if k1 = k then some ((map_find m k).getD v) else map_find m k1 := by
  unfold map_insert
  cases h : map_find m k with
  | none =>
    by_cases hk : k1 = k
    · subst hk; simp [map_find_cons]
    · have hk2 : ¬ k = k1 := fun e => hk e.symm
      simp [map_find_cons, hk, hk2]
  | some x =>
    by_cases hk : k1 = k
    · subst hk; simp [h]
    · simp [hk]

theorem map_insert_snd (m : std_map K V) (k : K) (v : V) :
    (map_insert m k v).2 = (map_find m k).isNone := by
  unfold map_insert
  cases h : map_find m k <;> simp

theorem map_find_erase (m : std_map K V) (k k1 : K) :
    map_find (map_erase m k) k1 = if k1 = k then none else map_find m k1 := by
  induction m with
  | nil => simp [map_erase]
  | cons p m ih =>
    obtain ⟨k2, v2⟩ := p
    unfold map_erase at ih ⊢
    by_cases h2 : k2 = k
    · subst h2
      rw [List.filter_cons_of_neg (by simp), ih, map_find_cons]
      by_cases hk : k1 = k2
      · simp [hk]
      · have hk2 : ¬ k2 = k1 := fun e => hk e.symm
        simp [hk, hk2]
    · rw [List.filter_cons_of_pos (by simpa using h2), map_find_cons, map_find_cons, ih]
      by_cases hk : k1 = k
      · subst hk
        simp [h2]
      · simp [hk]

theorem map_find_set (m : std_map K V) (k k1 : K) (v : V) :
    map_find (map_set m k v) k1
      = if k1 = k then (map_find m k).map (fun _ => v) else map_find m k1 := by
  induction m with
  | nil => simp [map_set]
  | cons p m ih =>
    obtain ⟨k2, v2⟩ := p
    unfold map_set
    by_cases h2 : k2 = k
    · subst h2
      by_cases hk : k1 = k2
      · subst hk; simp [map_find_cons]
      · have hk2 : ¬ k2 = k1 := fun e => hk e.symm
        simp [map_find_cons, hk, hk2]
    · by_cases hk : k1 = k
      · subst hk
        simp [map_find_cons, h2, ih]
      · simp only [h2, if_false, map_find_cons, ih, hk]

theorem map_find_ne_nil {m : std_map K V} (h : m ≠ []) : ∃ k v, map_find m k = some v := by
  cases m with
  | nil => exact absurd rfl h
  | cons p m =>
    obtain ⟨k, v⟩ := p
    exact ⟨k, v, by rw [map_find_cons, if_pos rfl]⟩

theorem map_insert_ne_nil (m : std_map K V) (k : K) (v : V) : (map_insert m k v).1 ≠ [] := by
  unfold map_insert
  cases h : map_find m k with
  | none => simp
  | some x =>
    intro hm
    simp only at hm
    rw [hm] at h
    simp at h

end map_lemmas

/-! ## Lemmas on the LRU index -/

theorem access_capacity (l : lru_list) (data : string_id_type) :
    (l.access data).1._capacity = l._capacity := by
  unfold lru_list.access
  split
  · rfl
  · split
    · split <;> rfl
    · rfl

/-- An identifier that is already tracked is moved to the front and nothing is evicted. -/
theorem access_tracked {l : lru_list} {data : string_id_type} (h : data ∈ l._access_list) :
    l.access data
      = ({ l with _access_list := data :: l._access_list.erase data }, none) := by
  unfold lru_list.access
  rw [if_pos h]

/-- An untracked identifier offered to an index below capacity is added at the front. -/
theorem access_room {l : lru_list} {data : string_id_type} (h : data ∉ l._access_list)
    (hlen : l._access_list.length ≠ l._capacity) :
    l.access data = ({ l with _access_list := data :: l._access_list }, none) := by
  unfold lru_list.access
  rw [if_neg h, if_neg hlen]

/-- An untracked identifier offered to a full index evicts the back of the recency list. -/
theorem access_full {l : lru_list} {data erased : string_id_type}
    (h : data ∉ l._access_list) (hlen : l._access_list.length = l._capacity)
    (hlast : l._access_list.getLast? = some erased) :
    l.access data
      = ({ l with _access_list := data :: l._access_list.dropLast }, some erased) := by
  unfold lru_list.access
  rw [if_neg h, if_pos hlen, hlast]

/-- Whenever the index reports an eviction, the offered identifier was untracked, the index was
full, and the evicted identifier is the back of the recency list. -/
theorem access_evicts {l : lru_list} {data erased : string_id_type}
    (h : (l.access data).2 = some erased) :
    data ∉ l._access_list ∧ l._access_list.length = l._capacity ∧
      l._access_list.getLast? = some erased ∧
      (l.access data).1 = { l with _access_list := data :: l._access_list.dropLast } := by
  unfold lru_list.access at h ⊢
  by_cases hm : data ∈ l._access_list
  · rw [if_pos hm] at h; simp at h
  · rw [if_neg hm] at h ⊢
    by_cases hlen : l._access_list.length = l._capacity
    · rw [if_pos hlen] at h ⊢
      cases hl : l._access_list.getLast? with
      | none => rw [hl] at h; simp at h
      | some e =>
        rw [hl] at h
        simp only [Option.some.injEq] at h
        subst h
        exact ⟨hm, hlen, rfl, rfl⟩
    · rw [if_neg hlen] at h; simp at h

/-- When the index reports no eviction, the new recency list is the offered identifier followed
by the old list without it. -/
theorem access_keeps {l : lru_list} {data : string_id_type} (h : (l.access data).2 = none) :
    (l.access data).1 = { l with _access_list := data :: l._access_list.erase data } := by
  unfold lru_list.access at h ⊢
  by_cases hm : data ∈ l._access_list
  · rw [if_pos hm]
  · rw [if_neg hm] at h ⊢
    rw [List.erase_of_not_mem hm]
    by_cases hlen : l._access_list.length = l._capacity
    · rw [if_pos hlen] at h ⊢
      cases hl : l._access_list.getLast? with
      | none => rfl
      | some e => rw [hl] at h; simp at h
    · rw [if_neg hlen]

theorem mem_dropLast_iff {l : List string_id_type} {e x : string_id_type} (hn : l.Nodup)
    (hlast : l.getLast? = some e) : x ∈ l.dropLast ↔ x ∈ l ∧ x ≠ e := by
  have hl : l.dropLast ++ [e] = l := List.dropLast_append_getLast? e (by simp [hlast])
  have hn2 : (l.dropLast ++ [e]).Nodup := by rw [hl]; exact hn
  have hnot : e ∉ l.dropLast := by
    intro he
    have := List.disjoint_of_nodup_append hn2 he (List.mem_singleton_self e)
    exact this
  constructor
  · intro hx
    exact ⟨List.mem_of_mem_dropLast hx, fun hxe => hnot (hxe ▸ hx)⟩
  · rintro ⟨hx, hxe⟩
    rw [← hl] at hx
    rcases List.mem_append.mp hx with h | h
    · exact h
    · exact absurd (List.mem_singleton.mp h) hxe

/-! ## The effect of `store_glyph_run` -/

/-- What a returning `store_glyph_run` does, in terms of the store `store1` left by the eviction
branch: the other data are as described, the trait map of `string_id` is the old one (or an empty
one) with the run inserted unless the trait is present, every other string keeps the trait map it
has in `store1`, and the result tells whether the trait was absent. -/
theorem store_glyph_run_find {g g1 : glyph_cache} {b : Bool} {s : string_id_type}
    {t : uint128_t} {r : glyph_run} (h : store_glyph_run g s t r = some (g1, b)) :
    ∃ store1 deleted1,
      (((g._glyph_run_lru.access s).2 = none ∧ store1 = g._glyph_run_store ∧
          deleted1 = g.deleted) ∨
        ∃ e traits, (g._glyph_run_lru.access s).2 = some e ∧
          map_find g._glyph_run_store e = some traits ∧
          store1 = map_erase g._glyph_run_store e ∧
          deleted1 = g.deleted ++ traits.map Prod.snd) ∧
      g1._glyph_store = g._glyph_store ∧
      g1._glyph_run_lru = (g._glyph_run_lru.access s).1 ∧
      g1.deleted = deleted1 ∧
      (∀ s1, map_find g1._glyph_run_store s1
        = if s1 = s then some (map_insert ((map_find store1 s).getD []) t r).1
          else map_find store1 s1) ∧
      b = (map_find ((map_find store1 s).getD []) t).isNone := by
  have key : ∀ (store1 : std_map string_id_type trait_to_run_map) (s1 : string_id_type),
      map_find (map_set (map_insert store1 s []).1 s
          (map_insert ((map_find (map_insert store1 s []).1 s).getD []) t r).1) s1
        = if s1 = s then some (map_insert ((map_find store1 s).getD []) t r).1
          else map_find store1 s1 := by
    intro store1 s1
    rw [map_find_set]
    by_cases hs : s1 = s
    · subst hs
      simp [map_find_insert]
    · simp [hs, map_find_insert]
  have flag : ∀ (store1 : std_map string_id_type trait_to_run_map),
      (map_insert ((map_find (map_insert store1 s []).1 s).getD []) t r).2
        = (map_find ((map_find store1 s).getD []) t).isNone := by
    intro store1
    rw [map_insert_snd]
    simp [map_find_insert]
  dsimp only [store_glyph_run] at h
  cases hacc : (g._glyph_run_lru.access s).2 with
  | none =>
    rw [hacc] at h
    simp only [Option.some.injEq, Prod.mk.injEq] at h
    obtain ⟨hg, hb⟩ := h
    subst hg
    refine ⟨g._glyph_run_store, g.deleted, Or.inl ⟨rfl, rfl, rfl⟩, rfl, rfl, rfl, ?_, ?_⟩
    · intro s1; exact key _ s1
    · rw [← hb]; exact flag _
  | some e =>
    rw [hacc] at h
    cases hfind : map_find g._glyph_run_store e with
    | none =>
      simp [hfind] at h
    | some traits =>
      simp only [hfind, Option.some.injEq, Prod.mk.injEq] at h
      obtain ⟨hg, hb⟩ := h
      subst hg
      refine ⟨map_erase g._glyph_run_store e, g.deleted ++ traits.map Prod.snd,
        Or.inr ⟨e, traits, rfl, hfind, rfl, rfl⟩, rfl, rfl, rfl, ?_, ?_⟩
      · intro s1; exact key _ s1
      · rw [← hb]; exact flag _

/-- A call of `store_glyph_run` returns as soon as the identifier evicted by the LRU index, if
any, is a key of the run store (the assertion of the eviction branch holds). -/
theorem store_glyph_run_returns (g : glyph_cache) (s : string_id_type) (t : uint128_t)
    (r : glyph_run)
    (h : ∀ e, (g._glyph_run_lru.access s).2 = some e → map_find g._glyph_run_store e ≠ none) :
    ∃ g1 b, store_glyph_run g s t r = some (g1, b) := by
  dsimp only [store_glyph_run]
  cases hacc : (g._glyph_run_lru.access s).2 with
  | none => exact ⟨_, _, rfl⟩
  | some e =>
    cases hfind : map_find g._glyph_run_store e with
    | none => exact absurd hfind (h e hacc)
    | some traits => simp only [hfind]; exact ⟨_, _, rfl⟩

/-! ## The consistency invariant -/

theorem inv_create (C : Nat) : run_cache_inv C (glyph_cache.create C) where
  capacity := rfl
  nodup := List.nodup_nil
  keys := by intro s; simp [glyph_cache.create, lru_list.resize]
  nonempty := by intro s m h; simp [glyph_cache.create] at h
  bounded := by intro _; simp [glyph_cache.create, lru_list.resize]

theorem inv_store_glyph_run {C : Nat} {g g1 : glyph_cache} {b : Bool} {s : string_id_type}
    {t : uint128_t} {r : glyph_run} (hinv : run_cache_inv C g)
    (h : store_glyph_run g s t r = some (g1, b)) : run_cache_inv C g1 := by
  obtain ⟨store1, deleted1, hcase, -, hlru, -, hfind, -⟩ := store_glyph_run_find h
  have hne : ∀ s1 m, map_find store1 s1 = some m → m ≠ [] := by
    intro s1 m hm
    rcases hcase with ⟨-, hs, -⟩ | ⟨e, traits, -, -, hs, -⟩
    · subst hs; exact hinv.nonempty s1 m hm
    · subst hs
      rw [map_find_erase] at hm
      by_cases hs1 : s1 = e
      · simp [hs1] at hm
      · rw [if_neg hs1] at hm; exact hinv.nonempty s1 m hm
  have hnonempty : ∀ s1 m, map_find g1._glyph_run_store s1 = some m → m ≠ [] := by
    intro s1 m hm
    rw [hfind] at hm
    by_cases hs1 : s1 = s
    · rw [if_pos hs1] at hm
      simp only [Option.some.injEq] at hm
      rw [← hm]
      exact map_insert_ne_nil _ _ _
    · rw [if_neg hs1] at hm
      exact hne s1 m hm
  rcases hcase with ⟨hacc, hs, -⟩ | ⟨e, traits, hacc, -, hs, -⟩
  · -- no eviction
    subst hs
    have hlist : g1._glyph_run_lru._access_list
        = s :: g._glyph_run_lru._access_list.erase s := by
      rw [hlru, access_keeps hacc]
    refine ⟨?_, ?_, ?_, hnonempty, ?_⟩
    · rw [hlru, access_capacity]; exact hinv.capacity
    · rw [hlist]
      exact List.nodup_cons.mpr ⟨hinv.nodup.not_mem_erase, hinv.nodup.erase s⟩
    · intro s1
      rw [hlist, hfind]
      by_cases hs1 : s1 = s
      · simp [hs1]
      · rw [if_neg hs1, List.mem_cons, hinv.nodup.mem_erase_iff, ← hinv.keys s1]
        simp [hs1]
    · intro hC
      rw [hlist]
      have hb := hinv.bounded hC
      by_cases hmem : s ∈ g._glyph_run_lru._access_list
      · rw [List.length_cons, List.length_erase_of_mem hmem]
        have : 0 < g._glyph_run_lru._access_list.length := List.length_pos_of_mem hmem
        omega
      · rw [List.length_cons, List.erase_of_not_mem hmem]
        by_cases hlen : g._glyph_run_lru._access_list.length = g._glyph_run_lru._capacity
        · -- a full index would have evicted
          exfalso
          cases hl : g._glyph_run_lru._access_list.getLast? with
          | none =>
            rw [List.getLast?_eq_none_iff] at hl
            rw [hl, hinv.capacity] at hlen
            simp at hlen
            omega
          | some e =>
            rw [access_full hmem hlen hl] at hacc
            simp at hacc
        · rw [hinv.capacity] at hlen
          omega
  · -- eviction of `e`
    subst hs
    obtain ⟨hmem, hlen, hlast, hacc1⟩ := access_evicts hacc
    have hlist : g1._glyph_run_lru._access_list
        = s :: g._glyph_run_lru._access_list.dropLast := by
      rw [hlru, hacc1]
    refine ⟨?_, ?_, ?_, hnonempty, ?_⟩
    · rw [hlru, access_capacity]; exact hinv.capacity
    · rw [hlist]
      exact List.nodup_cons.mpr
        ⟨fun hx => hmem (List.mem_of_mem_dropLast hx),
          hinv.nodup.sublist (List.dropLast_sublist _)⟩
    · intro s1
      rw [hlist, hfind]
      by_cases hs1 : s1 = s
      · simp [hs1]
      · rw [if_neg hs1, List.mem_cons, mem_dropLast_iff hinv.nodup hlast, map_find_erase]
        by_cases hs2 : s1 = e
        · subst hs2
          simp [hs1]
        · rw [if_neg hs2, ← hinv.keys s1]
          simp [hs1, hs2]
    · intro hC
      rw [hlist, List.length_cons, List.length_dropLast]
      have hb := hinv.bounded hC
      have : 0 < g._glyph_run_lru._access_list.length :=
        List.length_pos_of_mem (List.mem_of_getLast?_eq_some hlast)
      omega

theorem lookup_glyph_frame {g g1 : glyph_cache} {id : char_id_type} {res : Option FT_Glyph}
    (h : lookup_glyph g id = some (g1, res)) :
    g1._glyph_run_store = g._glyph_run_store ∧ g1._glyph_run_lru = g._glyph_run_lru ∧
      g1.deleted = g.deleted := by
  dsimp only [lookup_glyph] at h
  split at h
  · simp at h
  · split at h
    · simp at h
    · split at h
      · simp only [Option.some.injEq, Prod.mk.injEq] at h
        obtain ⟨hg, -⟩ := h
        subst hg
        exact ⟨rfl, rfl, rfl⟩
      · simp at h

theorem store_glyph_frame {g g1 : glyph_cache} {id : char_id_type} {glyph : Option FT_Glyph}
    {b : Bool} (h : store_glyph g id glyph = some (g1, b)) :
    g1._glyph_run_store = g._glyph_run_store ∧ g1._glyph_run_lru = g._glyph_run_lru ∧
      g1.deleted = g.deleted := by
  dsimp only [store_glyph] at h
  split at h
  · simp at h
  · simp only [Option.some.injEq, Prod.mk.injEq] at h
    obtain ⟨hg, -⟩ := h
    subst hg
    exact ⟨rfl, rfl, rfl⟩

theorem inv_of_frame {C : Nat} {g g1 : glyph_cache} (hinv : run_cache_inv C g)
    (h : g1._glyph_run_store = g._glyph_run_store ∧ g1._glyph_run_lru = g._glyph_run_lru ∧
      g1.deleted = g.deleted) : run_cache_inv C g1 := by
  obtain ⟨h1, h2, -⟩ := h
  refine ⟨?_, ?_, ?_, ?_, ?_⟩
  · rw [h2]; exact hinv.capacity
  · rw [h2]; exact hinv.nodup
  · rw [h1, h2]; exact hinv.keys
  · rw [h1]; exact hinv.nonempty
  · rw [h2]; exact hinv.bounded

theorem inv_call {C : Nat} {g g1 : glyph_cache} {c : cache_call} {res : call_result}
    (hinv : run_cache_inv C g) (h : call g c = some (g1, res)) : run_cache_inv C g1 := by
  cases c with
  | lookup_glyph id =>
    simp only [call, Option.map_eq_some', Prod.mk.injEq] at h
    obtain ⟨p, hp, hg, -⟩ := h
    subst hg
    exact inv_of_frame hinv (lookup_glyph_frame hp)
  | store_glyph id glyph =>
    simp only [call, Option.map_eq_some', Prod.mk.injEq] at h
    obtain ⟨p, hp, hg, -⟩ := h
    subst hg
    exact inv_of_frame hinv (store_glyph_frame hp)
  | lookup_glyph_run s t =>
    simp only [call, Option.some.injEq, Prod.mk.injEq] at h
    obtain ⟨hg, -⟩ := h
    subst hg
    exact hinv
  | store_glyph_run s t r =>
    simp only [call, Option.map_eq_some', Prod.mk.injEq] at h
    obtain ⟨p, hp, hg, -⟩ := h
    subst hg
    exact inv_store_glyph_run hinv hp

/-- Every reachable state satisfies the consistency invariant. -/
theorem Reachable.inv {C : Nat} {g : glyph_cache} (h : Reachable C g) : run_cache_inv C g := by
  induction h with
  | create => exact inv_create C
  | step _ hc ih => exact inv_call ih hc

/-! ## Lookups after a store -/

theorem lookup_glyph_run_eq (g : glyph_cache) (s : string_id_type) (t : uint128_t) :
    lookup_glyph_run g s t = map_find ((map_find g._glyph_run_store s).getD []) t := by
  unfold lookup_glyph_run
  cases map_find g._glyph_run_store s <;> simp

theorem evicted_ne_offered {l : lru_list} {s e : string_id_type}
    (h : (l.access s).2 = some e) : e ≠ s := by
  obtain ⟨hmem, -, hlast, -⟩ := access_evicts h
  intro hes
  subst hes
  exact hmem (List.mem_of_getLast?_eq_some hlast)

/-- Lookups after a store that evicted nothing: only the stored key can change, and it changes
only when it was absent. -/
theorem lookup_store_no_evict {g g1 : glyph_cache} {b : Bool} {s : string_id_type}
    {t : uint128_t} {r : glyph_run} (h : store_glyph_run g s t r = some (g1, b))
    (hacc : (g._glyph_run_lru.access s).2 = none) :
    b = (lookup_glyph_run g s t).isNone ∧
    ∀ s1 t1, lookup_glyph_run g1 s1 t1
      = if s1 = s ∧ t1 = t then some ((lookup_glyph_run g s t).getD r)
        else lookup_glyph_run g s1 t1 := by
  obtain ⟨store1, deleted1, hcase, -, -, -, hfind, hb⟩ := store_glyph_run_find h
  rcases hcase with ⟨-, hs, -⟩ | ⟨e, traits, hacc2, -, -, -⟩
  · subst hs
    refine ⟨by rw [hb, lookup_glyph_run_eq], ?_⟩
    intro s1 t1
    rw [lookup_glyph_run_eq g1, hfind, lookup_glyph_run_eq g s t]
    by_cases hs1 : s1 = s
    · subst hs1
      simp only [if_true, Option.getD_some, true_and, map_find_insert]
      by_cases ht1 : t1 = t
      · rw [if_pos ht1, if_pos ht1]
      · rw [if_neg ht1, if_neg ht1, lookup_glyph_run_eq]
    · rw [if_neg hs1, if_neg (fun hc => hs1 hc.1), lookup_glyph_run_eq]
  · rw [hacc] at hacc2
    simp at hacc2

/-- Lookups after a store that evicted `e`: every trait of `e` is gone, the stored key holds the
run (or what it held), and every other key is unchanged. -/
theorem lookup_store_evict {g g1 : glyph_cache} {b : Bool} {s e : string_id_type}
    {t : uint128_t} {r : glyph_run} (h : store_glyph_run g s t r = some (g1, b))
    (hacc : (g._glyph_run_lru.access s).2 = some e) :
    b = (lookup_glyph_run g s t).isNone ∧
    ∀ s1 t1, lookup_glyph_run g1 s1 t1
      = if s1 = e then none
        else if s1 = s ∧ t1 = t then some ((lookup_glyph_run g s t).getD r)
        else lookup_glyph_run g s1 t1 := by
  have hes : e ≠ s := evicted_ne_offered hacc
  have hse : s ≠ e := fun hc => hes hc.symm
  obtain ⟨store1, deleted1, hcase, -, -, -, hfind, hb⟩ := store_glyph_run_find h
  rcases hcase with ⟨hacc2, -, -⟩ | ⟨e1, traits, hacc2, -, hs, -⟩
  · rw [hacc] at hacc2
    simp at hacc2
  · rw [hacc] at hacc2
    simp only [Option.some.injEq] at hacc2
    subst hacc2
    subst hs
    have hsame : map_find (map_erase g._glyph_run_store e) s = map_find g._glyph_run_store s := by
      rw [map_find_erase, if_neg hse]
    rw [hsame] at hfind hb
    refine ⟨by rw [hb, lookup_glyph_run_eq], ?_⟩
    intro s1 t1
    rw [lookup_glyph_run_eq g1, hfind, lookup_glyph_run_eq g s t]
    by_cases hs1 : s1 = s
    · subst hs1
      simp only [if_true, Option.getD_some, true_and, map_find_insert, if_neg hse]
      by_cases ht1 : t1 = t
      · rw [if_pos ht1, if_pos ht1]
      · rw [if_neg ht1, if_neg ht1, lookup_glyph_run_eq]
    · have hs3 : ¬ (s1 = s ∧ t1 = t) := fun hc => hs1 hc.1
      rw [if_neg hs1, map_find_erase]
      by_cases hs2 : s1 = e
      · rw [if_pos hs2, if_pos hs2]
        rfl
      · rw [if_neg hs2, if_neg hs2, if_neg hs3, lookup_glyph_run_eq]

/-- From a reachable state, `store_glyph_run` always returns: the assertion of the eviction branch
holds, because the identifier evicted by the LRU index is a key of the run store. -/
theorem store_glyph_run_total {C : Nat} {g : glyph_cache} (hr : Reachable C g)
    (s : string_id_type) (t : uint128_t) (r : glyph_run) :
    ∃ g1 b, store_glyph_run g s t r = some (g1, b) := by
  apply store_glyph_run_returns
  intro e he
  obtain ⟨-, -, hlast, -⟩ := access_evicts he
  exact (hr.inv.keys e).mp (List.mem_of_getLast?_eq_some hlast)

theorem sample_cache_1_reachable : Reachable 1 sample_cache_1 :=
  @Reachable.step 1 (glyph_cache.create 1) sample_cache_1
    (cache_call.store_glyph_run (1, 0) (0, 0) 101) (call_result.stored true)
    Reachable.create (by decide)

theorem store_absent_aux (C : Nat) (g : glyph_cache) (s : string_id_type)
    (t : uint128_t) (r : glyph_run) (hr : Reachable C g)
    (habs : lookup_glyph_run g s t = none) :
    ∃ g1, store_glyph_run g s t r = some (g1, true) ∧ lookup_glyph_run g1 s t = some r := by
  obtain ⟨g1, b, hstore⟩ := store_glyph_run_total hr s t r
  cases hacc : (g._glyph_run_lru.access s).2 with
  | none =>
    obtain ⟨hb, hlook⟩ := lookup_store_no_evict hstore hacc
    rw [habs] at hb hlook
    simp only [Option.isNone_none] at hb
    subst hb
    exact ⟨g1, hstore, by rw [hlook, if_pos ⟨rfl, rfl⟩]; rfl⟩
  | some e =>
    obtain ⟨hb, hlook⟩ := lookup_store_evict hstore hacc
    have hes : e ≠ s := evicted_ne_offered hacc
    rw [habs] at hb hlook
    simp only [Option.isNone_none] at hb
    subst hb
    exact ⟨g1, hstore, by rw [hlook, if_neg (fun hc => hes hc.symm), if_pos ⟨rfl, rfl⟩]; rfl⟩

/-! ### Storing a sequence of distinct strings -/

/-- Storing a run for an untracked string from a reachable state: the call returns true, the run
is retrievable, and every other string still tracked afterwards was tracked before and keeps all
its runs. -/
theorem store_untracked {C : Nat} {g : glyph_cache} {s : string_id_type} (t : uint128_t)
    (r : glyph_run) (hr : Reachable C g) (hs : s ∉ g._glyph_run_lru._access_list) :
    ∃ g1, store_glyph_run g s t r = some (g1, true) ∧
      lookup_glyph_run g1 s t = some r ∧
      g1._glyph_run_lru = (g._glyph_run_lru.access s).1 ∧
      ∀ s1, s1 ≠ s → s1 ∈ g1._glyph_run_lru._access_list →
        s1 ∈ g._glyph_run_lru._access_list ∧
          ∀ t1, lookup_glyph_run g1 s1 t1 = lookup_glyph_run g s1 t1 := by
  have hinv := hr.inv
  have habs : lookup_glyph_run g s t = none := by
    have : map_find g._glyph_run_store s = none := by
      by_contra hc
      exact hs ((hinv.keys s).mpr hc)
    simp [lookup_glyph_run, this]
  obtain ⟨g1, hstore, hnew⟩ := store_absent_aux C g s t r hr habs
  obtain ⟨-, -, -, -, hlru, -, -, -⟩ := store_glyph_run_find hstore
  refine ⟨g1, hstore, hnew, hlru, ?_⟩
  intro s1 hs1 hmem
  have hs2 : ¬ (s1 = s ∧ t = t) := fun hc => hs1 hc.1
  cases hacc : (g._glyph_run_lru.access s).2 with
  | none =>
    obtain ⟨-, hlook⟩ := lookup_store_no_evict hstore hacc
    rw [hlru, access_keeps hacc, List.erase_of_not_mem hs] at hmem
    rcases List.mem_cons.mp hmem with h | h
    · exact absurd h hs1
    · refine ⟨h, fun t1 => ?_⟩
      rw [hlook, if_neg (fun hc => hs1 hc.1)]
  | some e =>
    obtain ⟨-, hlook⟩ := lookup_store_evict hstore hacc
    obtain ⟨-, -, hlast, hacc1⟩ := access_evicts hacc
    rw [hlru, hacc1] at hmem
    rcases List.mem_cons.mp hmem with h | h
    · exact absurd h hs1
    · obtain ⟨h1, h2⟩ := (mem_dropLast_iff hinv.nodup hlast).mp h
      refine ⟨h1, fun t1 => ?_⟩
      rw [hlook, if_neg h2, if_neg (fun hc => hs1 hc.1)]

/-- Offering an untracked identifier to an index of capacity `C ≥ 1` whose recency list is the
first `C` elements of `L` gives the first `C` elements of `s :: L`. -/
theorem access_untracked_take {C : Nat} {l : lru_list} {s : string_id_type}
    {L : List string_id_type} (hcap : l._capacity = C) (hC : 1 ≤ C)
    (hs : s ∉ l._access_list) (hlist : l._access_list = L.take C) :
    (l.access s).1._access_list = (s :: L).take C := by
  rw [List.take_cons (by omega)]
  by_cases hlen : l._access_list.length = l._capacity
  · obtain ⟨e, hlast⟩ : ∃ e, l._access_list.getLast? = some e := by
      cases hl : l._access_list.getLast? with
      | none =>
        rw [List.getLast?_eq_none_iff] at hl
        rw [hl, hcap] at hlen
        simp at hlen
        omega
      | some e => exact ⟨e, rfl⟩
    rw [access_full hs hlen hlast]
    show s :: l._access_list.dropLast = _
    rw [List.dropLast_eq_take, hlen, hcap, hlist, List.take_take]
    congr 2
    omega
  · rw [access_room hs hlen]
    show s :: l._access_list = _
    rw [hcap, hlist, List.length_take] at hlen
    have hL : L.length ≤ C - 1 := by omega
    rw [hlist, List.take_of_length_le hL, List.take_of_length_le (by omega)]

theorem store_runs_spec (C : Nat) (t0 : uint128_t) (hC : 1 ≤ C) :
    ∀ (rest done : List (string_id_type × glyph_run)) (g : glyph_cache),
      Reachable C g →
      g._glyph_run_lru._access_list = ((done.map Prod.fst).reverse).take C →
      (∀ s r, s ∈ g._glyph_run_lru._access_list → (s, r) ∈ done →
        lookup_glyph_run g s t0 = some r) →
      ((done ++ rest).map Prod.fst).Nodup →
      ∃ g1, store_runs g t0 rest = some g1 ∧ Reachable C g1 ∧
        g1._glyph_run_lru._access_list = (((done ++ rest).map Prod.fst).reverse).take C ∧
        (∀ s r, s ∈ g1._glyph_run_lru._access_list → (s, r) ∈ done ++ rest →
          lookup_glyph_run g1 s t0 = some r) := by
  intro rest
  induction rest with
  | nil =>
    intro done g hr hlist hlook _
    exact ⟨g, rfl, hr, by simpa using hlist, by simpa using hlook⟩
  | cons p rest ih =>
    obtain ⟨s, r⟩ := p
    intro done g hr hlist hlook hnd
    have hsplit : done ++ (s, r) :: rest = (done ++ [(s, r)]) ++ rest := by simp
    have hfresh : s ∉ done.map Prod.fst := by
      intro hc
      rw [List.map_append, List.map_cons] at hnd
      have := (List.nodup_append.mp hnd).2.2
      exact this hc (List.mem_cons_self _ _)
    have hs : s ∉ g._glyph_run_lru._access_list := by
      intro hc
      rw [hlist] at hc
      exact hfresh (List.mem_reverse.mp (List.mem_of_mem_take hc))
    obtain ⟨g1, hstore, hnew, hlru, hkeep⟩ := store_untracked t0 r hr hs
    have hr1 : Reachable C g1 :=
      @Reachable.step C g g1 (cache_call.store_glyph_run s t0 r) (call_result.stored true) hr
        (by simp [call, hstore])
    have hlist1 : g1._glyph_run_lru._access_list
        = (((done ++ [(s, r)]).map Prod.fst).reverse).take C := by
      rw [hlru, access_untracked_take hr.inv.capacity hC hs hlist]
      simp
    have hlook1 : ∀ s1 r1, s1 ∈ g1._glyph_run_lru._access_list → (s1, r1) ∈ done ++ [(s, r)] →
        lookup_glyph_run g1 s1 t0 = some r1 := by
      intro s1 r1 hmem hin
      rcases List.mem_append.mp hin with h | h
      · have hne : s1 ≠ s := by
          intro hc
          subst hc
          exact hfresh (List.mem_map.mpr ⟨(s1, r1), h, rfl⟩)
        obtain ⟨hold, heq⟩ := hkeep s1 hne hmem
        rw [heq]
        exact hlook s1 r1 hold h
      · simp only [List.mem_singleton, Prod.mk.injEq] at h
        obtain ⟨h1, h2⟩ := h
        subst h1 h2
        exact hnew
    rw [hsplit] at hnd ⊢
    obtain ⟨g2, hruns, hr2, hlist2, hlook2⟩ := ih (done ++ [(s, r)]) g1 hr1 hlist1 hlook1 hnd
    refine ⟨g2, ?_, hr2, hlist2, hlook2⟩
    simp only [store_runs, hstore]
    exact hruns

theorem nodup_getElem_mem_drop {l : List string_id_type} (hn : l.Nodup) {i k : Nat}
    (hi : i < l.length) : l[i] ∈ l.drop k ↔ k ≤ i := by
  rw [List.mem_drop_iff_getElem]
  constructor
  · rintro ⟨j, hj, heq⟩
    have := (hn.getElem_inj_iff).mp heq
    omega
  · intro hk
    refine ⟨i - k, by omega, ?_⟩
    congr 1
    omega

/-! ### The LRU index tracks the most recently offered strings -/

theorem take_erase_of_mem (x : string_id_type) :
    ∀ (n : Nat) (acc : List string_id_type), x ∈ acc.take n →
      (acc.take n).erase x = (acc.erase x).take (n - 1) := by
  intro n acc
  induction acc generalizing n with
  | nil => intro h; simp at h
  | cons a as ih =>
    intro h
    cases n with
    | zero => simp at h
    | succ m =>
      rw [List.take_succ_cons] at h ⊢
      by_cases ha : a = x
      · subst ha
        simp
      · have hx : x ∈ as.take m := by
          rcases List.mem_cons.mp h with h1 | h1
          · exact absurd h1.symm ha
          · exact h1
        have hm : 0 < m := by
          cases m with
          | zero => simp at hx
          | succ k => omega
        rw [List.erase_cons_tail (by simpa using ha), List.erase_cons_tail (by simpa using ha),
          ih m hx]
        simp only [Nat.add_sub_cancel]
        rw [List.take_cons hm]

theorem take_erase_of_not_mem (x : string_id_type) :
    ∀ (n : Nat) (acc : List string_id_type), x ∉ acc.take n →
      (acc.erase x).take n = acc.take n := by
  intro n acc
  induction acc generalizing n with
  | nil => intro _; simp
  | cons a as ih =>
    intro h
    cases n with
    | zero => simp
    | succ m =>
      rw [List.take_succ_cons] at h
      have ha : a ≠ x := fun e => h (by simp [e])
      have hx : x ∉ as.take m := fun e => h (List.mem_cons_of_mem _ e)
      rw [List.erase_cons_tail (by simpa using ha), List.take_succ_cons, List.take_succ_cons,
        ih m hx]

/-- One offer to an index of capacity `C ≥ 1` that holds the first `C` elements of a recency
order `acc` gives the first `C` elements of the updated recency order. -/
theorem access_take {C : Nat} {l : lru_list} {x : string_id_type} {acc : List string_id_type}
    (hcap : l._capacity = C) (hC : 1 ≤ C) (hlist : l._access_list = acc.take C) :
    (l.access x).1._access_list = (x :: acc.erase x).take C := by
  by_cases hx : x ∈ l._access_list
  · rw [access_tracked hx, List.take_cons (by omega)]
    show x :: l._access_list.erase x = _
    rw [hlist] at hx ⊢
    rw [take_erase_of_mem x C acc hx]
  · rw [access_untracked_take hcap hC hx hlist, List.take_cons (by omega),
      List.take_cons (by omega)]
    rw [hlist] at hx
    have hx1 : x ∉ acc.take (C - 1) := by
      intro hc
      apply hx
      have : acc.take (C - 1) = (acc.take C).take (C - 1) := by
        rw [List.take_take]
        congr 1
        omega
      rw [this] at hc
      exact List.mem_of_mem_take hc
    rw [take_erase_of_not_mem x (C - 1) acc hx1]

theorem calls_recency {C : Nat} (hC : 1 ≤ C) :
    ∀ (cs : List cache_call) (g g1 : glyph_cache) (acc : List string_id_type),
      calls g cs = some g1 → g._glyph_run_lru._capacity = C →
      g._glyph_run_lru._access_list = acc.take C →
      g1._glyph_run_lru._access_list
        = ((offers cs).foldl (fun acc x => x :: acc.erase x) acc).take C := by
  intro cs
  induction cs with
  | nil =>
    intro g g1 acc hc _ hlist
    simp only [calls, Option.some.injEq] at hc
    subst hc
    simpa [offers] using hlist
  | cons c cs ih =>
    intro g g1 acc hc hcap hlist
    simp only [calls] at hc
    cases hcall : call g c with
    | none => simp [hcall] at hc
    | some p =>
      obtain ⟨g2, res⟩ := p
      simp only [hcall] at hc
      cases c with
      | lookup_glyph id =>
        simp only [call, Option.map_eq_some', Prod.mk.injEq] at hcall
        obtain ⟨q, hq, hg, -⟩ := hcall
        subst hg
        obtain ⟨-, hl, -⟩ := lookup_glyph_frame hq
        simp only [offers]
        exact ih q.1 g1 acc hc (by rw [hl]; exact hcap) (by rw [hl]; exact hlist)
      | store_glyph id glyph =>
        simp only [call, Option.map_eq_some', Prod.mk.injEq] at hcall
        obtain ⟨q, hq, hg, -⟩ := hcall
        subst hg
        obtain ⟨-, hl, -⟩ := store_glyph_frame hq
        simp only [offers]
        exact ih q.1 g1 acc hc (by rw [hl]; exact hcap) (by rw [hl]; exact hlist)
      | lookup_glyph_run s t =>
        simp only [call, Option.some.injEq, Prod.mk.injEq] at hcall
        obtain ⟨hg, -⟩ := hcall
        subst hg
        simp only [offers]
        exact ih g g1 acc hc hcap hlist
      | store_glyph_run s t r =>
        simp only [call, Option.map_eq_some', Prod.mk.injEq] at hcall
        obtain ⟨q, hq, hg, -⟩ := hcall
        subst hg
        obtain ⟨g3, b⟩ := q
        obtain ⟨-, -, -, -, hl, -, -, -⟩ := store_glyph_run_find hq
        simp only [offers, List.foldl_cons]
        refine ih g3 g1 (s :: acc.erase s) hc ?_ ?_
        · rw [hl, access_capacity]; exact hcap
        · rw [hl]; exact access_take hcap hC hlist

/-- After any returning sequence of calls on a fresh cache of capacity `C ≥ 1`, the LRU index
tracks the `C` most recently offered distinct strings, most recently offered first: its recency
list is the first `C` elements of `recency` of the offers.  The back of the list, which is what
a full index evicts, is therefore the least recently offered of the tracked strings. -/
theorem lru_tracks_most_recent {C : Nat} (hC : 1 ≤ C) (cs : List cache_call) (g : glyph_cache)
    (h : calls (glyph_cache.create C) cs = some g) :
    g._glyph_run_lru._access_list = (recency (offers cs)).take C :=
  calls_recency hC cs (glyph_cache.create C) g [] h rfl
    (by simp [glyph_cache.create, lru_list.resize])

theorem store_evicts_aux (C : Nat) (g : glyph_cache) (s : string_id_type)
    (t : uint128_t) (r : glyph_run) (hr : Reachable C g) (hC : 1 ≤ C)
    (hfull : g._glyph_run_lru._access_list.length = C)
    (hs : s ∉ g._glyph_run_lru._access_list) :
    ∃ e g1,
      g._glyph_run_lru._access_list.getLast? = some e ∧
      (g._glyph_run_lru.access s).2 = some e ∧
      e ≠ s ∧
      store_glyph_run g s t r = some (g1, true) ∧
      (∃ t1, lookup_glyph_run g e t1 ≠ none) ∧
      (∀ t1, lookup_glyph_run g1 e t1 = none) ∧
      lookup_glyph_run g1 s t = some r ∧
      (∀ s1 t1, s1 ≠ e → ¬ (s1 = s ∧ t1 = t) →
        lookup_glyph_run g1 s1 t1 = lookup_glyph_run g s1 t1) := by
  have hinv := hr.inv
  obtain ⟨e, hlast⟩ : ∃ e, g._glyph_run_lru._access_list.getLast? = some e := by
    cases hl : g._glyph_run_lru._access_list.getLast? with
    | none =>
      rw [List.getLast?_eq_none_iff] at hl
      rw [hl] at hfull
      simp at hfull
      omega
    | some e => exact ⟨e, rfl⟩
  have hacc : (g._glyph_run_lru.access s).2 = some e := by
    rw [access_full hs (by rw [hfull, hinv.capacity]) hlast]
  have hes : e ≠ s := evicted_ne_offered hacc
  obtain ⟨g1, b, hstore⟩ := store_glyph_run_total hr s t r
  obtain ⟨hb, hlook⟩ := lookup_store_evict hstore hacc
  have hold : lookup_glyph_run g s t = none := by
    have : map_find g._glyph_run_store s = none := by
      by_contra hc
      exact hs ((hinv.keys s).mpr hc)
    simp [lookup_glyph_run, this]
  rw [hold] at hb hlook
  simp only [Option.isNone_none] at hb
  subst hb
  refine ⟨e, g1, hlast, hacc, hes, hstore, ?_, ?_, ?_, ?_⟩
  · have he : map_find g._glyph_run_store e ≠ none :=
      (hinv.keys e).mp (List.mem_of_getLast?_eq_some hlast)
    obtain ⟨m, hm⟩ := Option.ne_none_iff_exists'.mp he
    obtain ⟨k, v, hkv⟩ := map_find_ne_nil (hinv.nonempty e m hm)
    exact ⟨k, by simp [lookup_glyph_run, hm, hkv]⟩
  · intro t1
    rw [hlook, if_pos rfl]
  · rw [hlook, if_neg (fun hc => hes hc.symm), if_pos ⟨rfl, rfl⟩]
    rfl
  · intro s1 t1 h1 h2
    rw [hlook, if_neg h1, if_neg h2]

theorem reachable_calls {C : Nat} :
    ∀ (cs : List cache_call) (g g1 : glyph_cache),
      Reachable C g → calls g cs = some g1 → Reachable C g1 := by
  intro cs
  induction cs with
  | nil =>
    intro g g1 hr hc
    simp only [calls, Option.some.injEq] at hc
    subst hc
    exact hr
  | cons c cs ih =>
    intro g g1 hr hc
    simp only [calls] at hc
    cases hcall : call g c with
    | none => simp [hcall] at hc
    | some p =>
      obtain ⟨g2, res⟩ := p
      simp only [hcall] at hc
      exact ih g2 g1 (Reachable.step hr hcall) hc

/-! ## The glyph store -/

section map_set_lemmas

variable {K V : Type} [DecidableEq K]

theorem map_set_self (m : std_map K V) (k : K) (v : V) (h : map_find m k = some v) :
    map_set m k v = m := by
  induction m with
  | nil => rfl
  | cons p m ih =>
    obtain ⟨k1, v1⟩ := p
    rw [map_find_cons] at h
    unfold map_set
    by_cases hk : k1 = k
    · rw [if_pos hk] at h ⊢
      simp only [Option.some.injEq] at h
      rw [h]
    · rw [if_neg hk] at h ⊢
      rw [ih h]

theorem map_set_set (m : std_map K V) (k : K) (v1 v2 : V) :
    map_set (map_set m k v1) k v2 = map_set m k v2 := by
  induction m with
  | nil => rfl
  | cons p m ih =>
    obtain ⟨k1, w⟩ := p
    by_cases hk : k1 = k
    · simp [map_set, hk]
    · simp [map_set, hk, ih]

end map_set_lemmas

/-- A lookup of a glyph that has no slot creates the slot, leaves it pending and returns
`NULL`. -/
theorem lookup_glyph_absent {g : glyph_cache} {id : char_id_type}
    (h : map_find g._glyph_store id = none) :
    lookup_glyph g id
      = some ({ g with _glyph_store := (id, INIT_ONCE.pending) :: g._glyph_store }, none) := by
  simp [lookup_glyph, h, map_insert, InitOnceBeginInitialize, map_set]

/-- A lookup of a glyph whose slot is uninitialised leaves it pending and returns `NULL`. -/
theorem lookup_glyph_uninitialized {g : glyph_cache} {id : char_id_type}
    (h : map_find g._glyph_store id = some INIT_ONCE.uninitialized) :
    lookup_glyph g id
      = some ({ g with _glyph_store := map_set g._glyph_store id INIT_ONCE.pending }, none) := by
  simp [lookup_glyph, h, InitOnceBeginInitialize]

/-- A lookup of a glyph whose slot is complete with a glyph returns it and changes nothing. -/
theorem lookup_glyph_complete {g : glyph_cache} {id : char_id_type} {r : FT_Glyph}
    (h : map_find g._glyph_store id = some (INIT_ONCE.complete (some r))) :
    lookup_glyph g id = some (g, some r) := by
  simp [lookup_glyph, h, InitOnceBeginInitialize, map_set_self _ _ _ h]

/-- A store on a pending slot completes it when given a glyph, and resets it to uninitialised
when given `NULL`. -/
theorem store_glyph_pending {g : glyph_cache} {id : char_id_type} (glyph : Option FT_Glyph)
    (h : map_find g._glyph_store id = some INIT_ONCE.pending) :
    store_glyph g id glyph
      = some ({ g with _glyph_store := (map_set g._glyph_store id
                  (if glyph.isNone then INIT_ONCE.uninitialized else INIT_ONCE.complete glyph)) },
              glyph.isSome) := by
  cases glyph <;> simp [store_glyph, h, InitOnceComplete]

/-- A complete slot is never changed by a call, whatever the call. -/
theorem complete_slot_stable {g g1 : glyph_cache} {id : char_id_type} {r : FT_Glyph}
    {c : cache_call} {res : call_result}
    (h : map_find g._glyph_store id = some (INIT_ONCE.complete (some r)))
    (hc : call g c = some (g1, res)) :
    map_find g1._glyph_store id = some (INIT_ONCE.complete (some r)) := by
  cases c with
  | lookup_glyph id1 =>
    simp only [call, Option.map_eq_some', Prod.mk.injEq] at hc
    obtain ⟨p, hp, hg, -⟩ := hc
    subst hg
    by_cases hid : id1 = id
    · subst hid
      rw [lookup_glyph_complete h] at hp
      simp only [Option.some.injEq] at hp
      rw [← hp]
      exact h
    · have hid2 : ¬ id = id1 := fun e => hid e.symm
      cases hf : map_find g._glyph_store id1 with
      | none =>
        rw [lookup_glyph_absent hf] at hp
        simp only [Option.some.injEq] at hp
        rw [← hp]
        simp only [map_find_cons, if_neg hid]
        exact h
      | some once =>
        cases once with
        | uninitialized =>
          rw [lookup_glyph_uninitialized hf] at hp
          simp only [Option.some.injEq] at hp
          rw [← hp]
          simp only [map_find_set, if_neg hid2]
          exact h
        | pending =>
          simp [lookup_glyph, hf, InitOnceBeginInitialize] at hp
        | complete ctx =>
          simp only [lookup_glyph, hf, InitOnceBeginInitialize] at hp
          split at hp
          · simp only [Option.some.injEq] at hp
            rw [← hp]
            simp only [map_find_set, if_neg hid2]
            exact h
          · simp at hp
  | store_glyph id1 glyph =>
    simp only [call, Option.map_eq_some', Prod.mk.injEq] at hc
    obtain ⟨p, hp, hg, -⟩ := hc
    subst hg
    cases hf : map_find g._glyph_store id1 with
    | none => simp [store_glyph, hf] at hp
    | some once =>
      simp only [store_glyph, hf, Option.some.injEq] at hp
      rw [← hp]
      simp only [map_find_set]
      by_cases hid : id = id1
      · subst hid
        rw [h] at hf
        simp only [Option.some.injEq] at hf
        subst hf
        simp [h, InitOnceComplete]
      · rw [if_neg hid]
        exact h
  | lookup_glyph_run s t =>
    simp only [call, Option.some.injEq, Prod.mk.injEq] at hc
    obtain ⟨hg, -⟩ := hc
    subst hg
    exact h
  | store_glyph_run s t r1 =>
    simp only [call, Option.map_eq_some', Prod.mk.injEq] at hc
    obtain ⟨p, hp, hg, -⟩ := hc
    subst hg
    obtain ⟨g2, b⟩ := p
    obtain ⟨-, -, -, hgs, -⟩ := store_glyph_run_find hp
    rw [hgs]
    exact h

theorem complete_slot_stable_calls {id : char_id_type} {r : FT_Glyph} :
    ∀ (cs : List cache_call) (g g1 : glyph_cache),
      map_find g._glyph_store id = some (INIT_ONCE.complete (some r)) →
      calls g cs = some g1 →
      map_find g1._glyph_store id = some (INIT_ONCE.complete (some r)) := by
  intro cs
  induction cs with
  | nil =>
    intro g g1 h hc
    simp only [calls, Option.some.injEq] at hc
    rw [← hc]
    exact h
  | cons c cs ih =>
    intro g g1 h hc
    simp only [calls] at hc
    cases hcall : call g c with
    | none => simp [hcall] at hc
    | some p =>
      obtain ⟨g2, res⟩ := p
      simp only [hcall] at hc
      exact ih g2 g1 (complete_slot_stable h hcall) hc

/-! ## Sequences of stores -/

/-- From a reachable state every sequence of `store_glyph_run` calls returns, with one flag per
call, and ends in a reachable state. -/
theorem store_calls_total {C : Nat} :
    ∀ (l : List (string_id_type × uint128_t × glyph_run)) (g : glyph_cache),
      Reachable C g →
      ∃ g1 flags, store_calls g l = some (g1, flags) ∧ Reachable C g1 ∧
        flags.length = l.length := by
  intro l
  induction l with
  | nil =>
    intro g hr
    exact ⟨g, [], rfl, hr, rfl⟩
  | cons p l ih =>
    obtain ⟨s, t, r⟩ := p
    intro g hr
    obtain ⟨g1, b, hstore⟩ := store_glyph_run_total hr s t r
    have hr1 : Reachable C g1 :=
      @Reachable.step C g g1 (cache_call.store_glyph_run s t r) (call_result.stored b) hr
        (by simp [call, hstore])
    obtain ⟨g2, flags, hrest, hr2, hlen⟩ := ih g1 hr1
    refine ⟨g2, b :: flags, ?_, hr2, by simp [hlen]⟩
    simp [store_calls, hstore, hrest]

/-! ## Occupancy -/

theorem map_find_mem_keys {K V : Type} [DecidableEq K] {m : std_map K V} {k : K} {v : V}
    (h : map_find m k = some v) : k ∈ m.map Prod.fst := by
  induction m with
  | nil => simp at h
  | cons p m ih =>
    obtain ⟨k1, v1⟩ := p
    rw [map_find_cons] at h
    by_cases hk : k1 = k
    · simp [hk]
    · rw [if_neg hk] at h
      exact List.mem_cons_of_mem _ (ih h)

/-- The list `occupied g` holds exactly the strings that have a retrievable run. -/
theorem mem_occupied (g : glyph_cache) (s : string_id_type) :
    s ∈ occupied g ↔ ∃ t r, lookup_glyph_run g s t = some r := by
  unfold occupied
  rw [List.mem_filter, List.mem_dedup]
  constructor
  · rintro ⟨-, h⟩
    cases hf : map_find g._glyph_run_store s with
    | none => simp [hf] at h
    | some m =>
      cases m with
      | nil => simp [hf] at h
      | cons p m =>
        obtain ⟨t, r⟩ := p
        exact ⟨t, r, by simp [lookup_glyph_run, hf, map_find_cons]⟩
  · rintro ⟨t, r, h⟩
    cases hf : map_find g._glyph_run_store s with
    | none => simp [lookup_glyph_run, hf] at h
    | some m =>
      cases m with
      | nil => simp [lookup_glyph_run, hf] at h
      | cons p m => exact ⟨map_find_mem_keys hf, by simp⟩

theorem occupied_nodup (g : glyph_cache) : (occupied g).Nodup :=
  (List.nodup_dedup _).filter _

/-- In a state that satisfies the consistency invariant for a capacity `C ≥ 1`, distinct strings
that all have a retrievable run are at most `C`. -/
theorem retrievable_le_capacity {C : Nat} {g : glyph_cache} (hinv : run_cache_inv C g)
    (hC : 1 ≤ C) (L : List string_id_type) (hL : L.Nodup)
    (hrun : ∀ s ∈ L, ∃ t r, lookup_glyph_run g s t = some r) : L.length ≤ C := by
  have hsub : L ⊆ g._glyph_run_lru._access_list := by
    intro s hs
    obtain ⟨t, r, h⟩ := hrun s hs
    apply (hinv.keys s).mpr
    intro hc
    simp [lookup_glyph_run, hc] at h
  exact le_trans (List.subperm_of_subset hL hsub).length_le (hinv.bounded hC)

/-- A sequence of glyph-run calls always returns from a reachable state. -/
theorem run_calls_total {C : Nat} :
    ∀ (cs : List cache_call) (g : glyph_cache), Reachable C g →
      (∀ c ∈ cs, is_run_call c = true) →
      ∃ g1, calls g cs = some g1 ∧ Reachable C g1 := by
  intro cs
  induction cs with
  | nil =>
    intro g hr _
    exact ⟨g, rfl, hr⟩
  | cons c cs ih =>
    intro g hr hrun
    have hc : is_run_call c = true := hrun c (List.mem_cons_self _ _)
    have hrest : ∀ c1 ∈ cs, is_run_call c1 = true :=
      fun c1 h1 => hrun c1 (List.mem_cons_of_mem _ h1)
    cases c with
    | lookup_glyph id => simp [is_run_call] at hc
    | store_glyph id glyph => simp [is_run_call] at hc
    | lookup_glyph_run s t =>
      obtain ⟨g1, h1, hr1⟩ := ih g hr hrest
      exact ⟨g1, by simp [calls, call, h1], hr1⟩
    | store_glyph_run s t r =>
      obtain ⟨g1, b, hstore⟩ := store_glyph_run_total hr s t r
      have hr1 : Reachable C g1 :=
        @Reachable.step C g g1 (cache_call.store_glyph_run s t r) (call_result.stored b) hr
          (by simp [call, hstore])
      obtain ⟨g2, h2, hr2⟩ := ih g1 hr1 hrest
      exact ⟨g2, by simp [calls, call, hstore, h2], hr2⟩

/-! ## Stores for a tracked string -/

/-- A string that has a retrievable run is tracked by the LRU index of a reachable state. -/
theorem tracked_of_retrievable {C : Nat} {g : glyph_cache} {s : string_id_type}
    {t : uint128_t} {r : glyph_run} (hr : Reachable C g)
    (h : lookup_glyph_run g s t = some r) : s ∈ g._glyph_run_lru._access_list := by
  apply (hr.inv.keys s).mpr
  intro hc
  simp [lookup_glyph_run, hc] at h

/-- A store for a tracked string from a reachable state: the index reports no eviction and
moves the string to the front, nothing is deleted, a key changes only if it is the stored key and
was absent, and the flag tells whether it was absent. -/
theorem store_tracked {C : Nat} {g : glyph_cache} {s : string_id_type} (t : uint128_t)
    (r : glyph_run) (hr : Reachable C g) (hs : s ∈ g._glyph_run_lru._access_list) :
    (g._glyph_run_lru.access s).2 = none ∧
    ∃ g1, store_glyph_run g s t r = some (g1, (lookup_glyph_run g s t).isNone) ∧
      Reachable C g1 ∧
      g1.deleted = g.deleted ∧
      g1._glyph_run_lru._access_list = s :: g._glyph_run_lru._access_list.erase s ∧
      (∀ s1 t1, lookup_glyph_run g1 s1 t1
        = if s1 = s ∧ t1 = t then some ((lookup_glyph_run g s t).getD r)
          else lookup_glyph_run g s1 t1) := by
  have hacc : (g._glyph_run_lru.access s).2 = none := by rw [access_tracked hs]
  obtain ⟨g1, b, hstore⟩ := store_glyph_run_total hr s t r
  obtain ⟨hb, hlook⟩ := lookup_store_no_evict hstore hacc
  subst hb
  have hr1 : Reachable C g1 :=
    @Reachable.step C g g1 (cache_call.store_glyph_run s t r)
      (call_result.stored (lookup_glyph_run g s t).isNone) hr (by simp [call, hstore])
  obtain ⟨store1, deleted1, hcase, -, hlru, hdel, -, -⟩ := store_glyph_run_find hstore
  refine ⟨hacc, g1, hstore, hr1, ?_, ?_, hlook⟩
  · rcases hcase with ⟨-, -, hd⟩ | ⟨e, traits, hacc2, -, -, -⟩
    · rw [hdel, hd]
    · rw [hacc] at hacc2
      simp at hacc2
  · rw [hlru, access_tracked hs]

/-- After a store for a tracked string every key that was retrievable is retrievable with the
same run. -/
theorem store_tracked_keeps {g g1 : glyph_cache} {s : string_id_type} {t : uint128_t}
    {r : glyph_run}
    (hlook : ∀ s1 t1, lookup_glyph_run g1 s1 t1
        = if s1 = s ∧ t1 = t then some ((lookup_glyph_run g s t).getD r)
          else lookup_glyph_run g s1 t1)
    (s1 : string_id_type) (t1 : uint128_t) (x : glyph_run)
    (h : lookup_glyph_run g s1 t1 = some x) : lookup_glyph_run g1 s1 t1 = some x := by
  rw [hlook]
  by_cases hc : s1 = s ∧ t1 = t
  · rw [if_pos hc]
    rw [hc.1, hc.2] at h
    rw [h]
    rfl
  · rw [if_neg hc]
    exact h

theorem store_variants_keep {C : Nat} (s : string_id_type) :
    ∀ (vs : List (uint128_t × glyph_run)) (g : glyph_cache), Reachable C g →
      s ∈ g._glyph_run_lru._access_list →
      ∃ g2, store_variants g s vs = some g2 ∧ g2.deleted = g.deleted ∧
        (∀ s1 t1 x, lookup_glyph_run g s1 t1 = some x → lookup_glyph_run g2 s1 t1 = some x) ∧
        ∀ v ∈ vs, ∃ x, lookup_glyph_run g2 s v.1 = some x := by
  intro vs
  induction vs with
  | nil =>
    intro g _ _
    exact ⟨g, rfl, rfl, fun _ _ _ h => h, by simp⟩
  | cons v vs ih =>
    obtain ⟨t, r⟩ := v
    intro g hr hs
    obtain ⟨-, g1, hstore, hr1, hdel, hlist, hlook⟩ := store_tracked t r hr hs
    have hs1 : s ∈ g1._glyph_run_lru._access_list := by
      rw [hlist]
      exact List.mem_cons_self _ _
    obtain ⟨g2, hrest, hdel2, hkeep2, hall2⟩ := ih g1 hr1 hs1
    refine ⟨g2, by simp [store_variants, hstore, hrest], by rw [hdel2, hdel], ?_, ?_⟩
    · intro s1 t1 x h
      exact hkeep2 s1 t1 x (store_tracked_keeps hlook s1 t1 x h)
    · intro v hv
      rcases List.mem_cons.mp hv with h | h
      · subst h
        have h1 : lookup_glyph_run g1 s t = some ((lookup_glyph_run g s t).getD r) := by
          rw [hlook, if_pos ⟨rfl, rfl⟩]
        exact ⟨_, hkeep2 s t _ h1⟩
      · exact hall2 v h

/-! ## Recency after a store for the least recently offered string -/

/-- Moving the back of a recency list of at least two distinct identifiers to the front leaves
another identifier at the back. -/
theorem getLast_after_touch {l : List string_id_type} {s : string_id_type} (hn : l.Nodup)
    (hlast : l.getLast? = some s) (hlen : 2 ≤ l.length) :
    ∃ e, (s :: l.erase s).getLast? = some e ∧ e ≠ s ∧ e ∈ l := by
  have hl : l.dropLast ++ [s] = l := List.dropLast_append_getLast? s (by simp [hlast])
  have hnot : s ∉ l.dropLast := by
    intro hc
    exact ((mem_dropLast_iff hn hlast).mp hc).2 rfl
  have herase : l.erase s = l.dropLast := by
    conv_lhs => rw [← hl]
    rw [List.erase_append_right _ hnot]
    simp
  have hlen2 : 1 ≤ l.dropLast.length := by
    rw [List.length_dropLast]
    omega
  rw [herase]
  cases hd : l.dropLast with
  | nil => rw [hd] at hlen2; simp at hlen2
  | cons a rest =>
    rw [List.getLast?_cons_cons]
    cases hl2 : (a :: rest).getLast? with
    | none => simp at hl2
    | some e =>
      have he : e ∈ l.dropLast := by
        rw [hd]
        exact List.mem_of_getLast?_eq_some hl2
      obtain ⟨h1, h2⟩ := (mem_dropLast_iff hn hlast).mp he
      exact ⟨e, rfl, h2, h1⟩

theorem sample_cache_3_reachable : Reachable 2 sample_cache_3 :=
  reachable_calls
    [cache_call.store_glyph_run (1, 0) (0, 0) 101, cache_call.store_glyph_run (2, 0) (0, 0) 102]
    (glyph_cache.create 2) sample_cache_3 Reachable.create (by decide)

/-! ## The capacity set by `initialize` -/

theorem shl_one_int_small {n : Nat} (h : n ≤ 30) : shl_one_int n = some ((2 ^ n : Nat) : Int) := by
  have hpow : 2 ^ n ≤ 2 ^ 30 := Nat.pow_le_pow_right (by norm_num) h
  have hlt : 2 ^ n < 2 ^ 31 := by omega
  have hmod : (1 <<< n) % 2 ^ 32 = 2 ^ n := by
    rw [Nat.shiftLeft_eq, Nat.one_mul]
    exact Nat.mod_eq_of_lt (by omega)
  unfold shl_one_int
  rw [if_pos (by omega), hmod, if_pos hlt]

theorem pow_min_24 (n : Nat) : min (2 ^ n) (2 ^ 24) = 2 ^ (min n 24) := by
  by_cases hn : n ≤ 24
  · have h1 : 2 ^ n ≤ 2 ^ 24 := Nat.pow_le_pow_right (by norm_num) hn
    rw [Nat.min_eq_left hn, Nat.min_eq_left h1]
  · have hn2 : 24 ≤ n := by omega
    have h1 : 2 ^ 24 ≤ 2 ^ n := Nat.pow_le_pow_right (by norm_num) hn2
    rw [Nat.min_eq_right hn2, Nat.min_eq_right h1]

theorem capacity_small (n : Nat) (h : n ≤ 30) :
    to_unsigned_int (min_int ((2 ^ n : Nat) : Int) 16777216) = min (2 ^ n) (2 ^ 24) := by
  have hpow : 2 ^ n ≤ 2 ^ 30 := Nat.pow_le_pow_right (by norm_num) h
  unfold to_unsigned_int min_int
  by_cases hc : ((2 ^ n : Nat) : Int) < 16777216
  · rw [if_pos hc]
    have hc2 : 2 ^ n < 16777216 := by exact_mod_cast hc
    have h24 : (2 : Nat) ^ 24 = 16777216 := by norm_num
    rw [h24, Nat.min_eq_left (by omega)]
    generalize 2 ^ n = x at *
    omega
  · rw [if_neg hc]
    have hc2 : 16777216 ≤ 2 ^ n := by
      have := not_lt.mp hc
      exact_mod_cast this
    have h24 : (2 : Nat) ^ 24 = 16777216 := by norm_num
    rw [h24, Nat.min_eq_right hc2]
    rfl

/-- For a configured size `n ≤ 30` the shift does not overflow and `initialize` sets the capacity
to `min(2^n, 2^24)`, a power of two between 1 and `2^24`. -/
theorem initialise_small (g : glyph_cache) (n : Nat) (h : n ≤ 30) :
    ∃ g1, glyph_cache_initialise g n = some g1 ∧
      g1._glyph_run_lru._capacity = min (2 ^ n) (2 ^ 24) ∧
      g1._glyph_run_lru._capacity = 2 ^ (min n 24) ∧
      1 ≤ g1._glyph_run_lru._capacity ∧ g1._glyph_run_lru._capacity ≤ 2 ^ 24 := by
  have hpos : 1 ≤ 2 ^ n := Nat.one_le_two_pow
  have hcap := capacity_small n h
  have hinit : glyph_cache_initialise g n
      = some { g with _glyph_run_lru :=
          (g._glyph_run_lru.resize (to_unsigned_int (min_int ((2 ^ n : Nat) : Int) 16777216))) } := by
    simp only [glyph_cache_initialise, shl_one_int_small h]
  refine ⟨_, hinit, ?_, ?_, ?_, ?_⟩ <;> dsimp only [lru_list.resize] <;> rw [hcap]
  · exact pow_min_24 n
  · exact Nat.le_min.mpr ⟨hpos, by norm_num⟩
  · exact Nat.min_le_right _ _

/-! ## Ownership of the runs -/

theorem stored_runs_cons (k : string_id_type) (v : trait_to_run_map)
    (m : std_map string_id_type trait_to_run_map) :
    stored_runs ((k, v) :: m) = v.map Prod.snd ++ stored_runs m := by
  simp [stored_runs]

theorem map_find_eq_none_iff {K V : Type} [DecidableEq K] (m : std_map K V) (k : K) :
    map_find m k = none ↔ k ∉ m.map Prod.fst := by
  induction m with
  | nil => simp
  | cons p m ih =>
    obtain ⟨k1, v1⟩ := p
    rw [map_find_cons]
    by_cases hk : k1 = k
    · simp [hk]
    · have hk2 : ¬ k = k1 := fun e => hk e.symm
      simp [hk, hk2, ih]

theorem map_erase_of_not_mem {K V : Type} [DecidableEq K] (m : std_map K V) (k : K)
    (h : k ∉ m.map Prod.fst) : map_erase m k = m := by
  unfold map_erase
  rw [List.filter_eq_self]
  intro p hp
  have : p.1 ≠ k := by
    intro hc
    exact h (List.mem_map.mpr ⟨p, hp, hc⟩)
  simpa using this

theorem map_erase_keys_nodup {K V : Type} [DecidableEq K] (m : std_map K V) (k : K)
    (h : (m.map Prod.fst).Nodup) : ((map_erase m k).map Prod.fst).Nodup :=
  h.sublist ((List.filter_sublist m).map Prod.fst)

theorem map_set_keys {K V : Type} [DecidableEq K] (m : std_map K V) (k : K) (v : V) :
    (map_set m k v).map Prod.fst = m.map Prod.fst := by
  induction m with
  | nil => rfl
  | cons p m ih =>
    obtain ⟨k1, v1⟩ := p
    unfold map_set
    by_cases hk : k1 = k
    · simp [hk]
    · simp [hk, ih]

theorem map_insert_keys_nodup {K V : Type} [DecidableEq K] (m : std_map K V) (k : K) (v : V)
    (h : (m.map Prod.fst).Nodup) : ((map_insert m k v).1.map Prod.fst).Nodup := by
  unfold map_insert
  cases hf : map_find m k with
  | none =>
    simp only [List.map_cons]
    exact List.nodup_cons.mpr ⟨(map_find_eq_none_iff m k).mp hf, h⟩
  | some x => exact h

theorem stored_runs_insert_nil (m : std_map string_id_type trait_to_run_map)
    (s : string_id_type) : stored_runs (map_insert m s []).1 = stored_runs m := by
  unfold map_insert
  cases hf : map_find m s with
  | none => simp [stored_runs_cons]
  | some x => rfl

/-- Erasing the entry of a string removes exactly the runs of its trait map. -/
theorem stored_runs_erase (m : std_map string_id_type trait_to_run_map) (e : string_id_type)
    (traits : trait_to_run_map) (hk : (m.map Prod.fst).Nodup)
    (hf : map_find m e = some traits) :
    (stored_runs (map_erase m e) ++ traits.map Prod.snd).Perm (stored_runs m) := by
  induction m with
  | nil => simp at hf
  | cons p m ih =>
    obtain ⟨k, v⟩ := p
    rw [List.map_cons, List.nodup_cons] at hk
    rw [map_find_cons] at hf
    by_cases hke : k = e
    · subst hke
      rw [if_pos rfl] at hf
      simp only [Option.some.injEq] at hf
      subst hf
      have herase : map_erase ((k, v) :: m) k = m := by
        unfold map_erase
        rw [List.filter_cons_of_neg (by simp)]
        exact map_erase_of_not_mem m k hk.1
      rw [herase, stored_runs_cons]
      exact List.perm_append_comm
    · rw [if_neg hke] at hf
      have herase : map_erase ((k, v) :: m) e = (k, v) :: map_erase m e := by
        unfold map_erase
        rw [List.filter_cons_of_pos (by simpa using hke)]
      rw [herase, stored_runs_cons, stored_runs_cons, List.append_assoc]
      exact (ih hk.2 hf).append_left _

/-- Replacing the trait map of a string by the same map with one more entry adds exactly the run
of that entry. -/
theorem stored_runs_set_cons (m : std_map string_id_type trait_to_run_map) (s : string_id_type)
    (v0 : trait_to_run_map) (p : uint128_t × glyph_run) (hf : map_find m s = some v0) :
    (stored_runs (map_set m s (p :: v0))).Perm (p.2 :: stored_runs m) := by
  induction m with
  | nil => simp at hf
  | cons q m ih =>
    obtain ⟨k, v⟩ := q
    rw [map_find_cons] at hf
    unfold map_set
    by_cases hks : k = s
    · rw [if_pos hks] at hf ⊢
      simp only [Option.some.injEq] at hf
      subst hf
      rw [stored_runs_cons, stored_runs_cons]
      simp
    · rw [if_neg hks] at hf ⊢
      rw [stored_runs_cons, stored_runs_cons]
      exact ((ih hf).append_left _).trans List.perm_middle

/-- A retrievable run is one of the runs held by the store. -/
theorem lookup_mem_stored_runs {g : glyph_cache} {s : string_id_type} {t : uint128_t}
    {r : glyph_run} (h : lookup_glyph_run g s t = some r) :
    r ∈ stored_runs g._glyph_run_store := by
  have hmem : ∀ (m : std_map string_id_type trait_to_run_map) (v : trait_to_run_map),
      map_find m s = some v → map_find v t = some r → r ∈ stored_runs m := by
    intro m
    induction m with
    | nil => intro v hv; simp at hv
    | cons q m ih =>
      obtain ⟨k, w⟩ := q
      intro v hv hr
      rw [map_find_cons] at hv
      rw [stored_runs_cons]
      by_cases hks : k = s
      · rw [if_pos hks] at hv
        simp only [Option.some.injEq] at hv
        subst hv
        apply List.mem_append_left
        have hin : ∀ (u : trait_to_run_map), map_find u t = some r → r ∈ u.map Prod.snd := by
          intro u
          induction u with
          | nil => intro hu; simp at hu
          | cons a u ihu =>
            obtain ⟨t1, r1⟩ := a
            intro hu
            rw [map_find_cons] at hu
            by_cases ht : t1 = t
            · rw [if_pos ht] at hu
              simp only [Option.some.injEq] at hu
              simp [hu]
            · rw [if_neg ht] at hu
              exact List.mem_map.mpr
                ⟨_, List.mem_cons_of_mem _ (List.mem_map.mp (ihu hu)).choose_spec.1,
                  (List.mem_map.mp (ihu hu)).choose_spec.2⟩
        exact hin w hr
      · rw [if_neg hks] at hv
        exact List.mem_append_right _ (ih v hv hr)
  cases hf : map_find g._glyph_run_store s with
  | none => simp [lookup_glyph_run, hf] at h
  | some v =>
    simp only [lookup_glyph_run, hf] at h
    exact hmem _ v hf h

/-- The run store and the record of deleted runs after a returning `store_glyph_run`, spelled
out in terms of the store `store1` left by the eviction branch. -/
theorem store_glyph_run_shape {g g1 : glyph_cache} {b : Bool} {s : string_id_type}
    {t : uint128_t} {r : glyph_run} (h : store_glyph_run g s t r = some (g1, b)) :
    ∃ store1 deleted1,
      ((store1 = g._glyph_run_store ∧ deleted1 = g.deleted) ∨
        ∃ e traits, map_find g._glyph_run_store e = some traits ∧
          store1 = map_erase g._glyph_run_store e ∧
          deleted1 = g.deleted ++ traits.map Prod.snd) ∧
      g1._glyph_store = g._glyph_store ∧
      g1._glyph_run_store = map_set (map_insert store1 s []).1 s
        (map_insert ((map_find (map_insert store1 s []).1 s).getD []) t r).1 ∧
      g1.deleted = deleted1 ∧
      b = (map_insert ((map_find (map_insert store1 s []).1 s).getD []) t r).2 := by
  dsimp only [store_glyph_run] at h
  cases hacc : (g._glyph_run_lru.access s).2 with
  | none =>
    rw [hacc] at h
    simp only [Option.some.injEq, Prod.mk.injEq] at h
    obtain ⟨hg, hb⟩ := h
    subst hg
    exact ⟨g._glyph_run_store, g.deleted, Or.inl ⟨rfl, rfl⟩, rfl, rfl, rfl, hb.symm⟩
  | some e =>
    rw [hacc] at h
    cases hfind : map_find g._glyph_run_store e with
    | none =>
      simp [hfind] at h
    | some traits =>
      simp only [hfind, Option.some.injEq, Prod.mk.injEq] at h
      obtain ⟨hg, hb⟩ := h
      subst hg
      exact ⟨map_erase g._glyph_run_store e, g.deleted ++ traits.map Prod.snd,
        Or.inr ⟨e, traits, hfind, rfl, rfl⟩, rfl, rfl, rfl, hb.symm⟩

/-- One returning `store_glyph_run` keeps the keys of the run store distinct, and the runs held
by the store together with the runs deleted so far are those of before the call, plus the run
passed to the call when the call returns true. -/
theorem store_glyph_run_owns {g g1 : glyph_cache} {b : Bool} {s : string_id_type}
    {t : uint128_t} {r : glyph_run} (hk : (g._glyph_run_store.map Prod.fst).Nodup)
    (h : store_glyph_run g s t r = some (g1, b)) :
    (g1._glyph_run_store.map Prod.fst).Nodup ∧
    (stored_runs g1._glyph_run_store ++ g1.deleted).Perm
      ((if b then [r] else []) ++ (stored_runs g._glyph_run_store ++ g.deleted)) := by
  obtain ⟨store1, deleted1, hcase, -, hstore, hdel, hb⟩ := store_glyph_run_shape h
  have h1 : (store1.map Prod.fst).Nodup ∧
      (stored_runs store1 ++ deleted1).Perm (stored_runs g._glyph_run_store ++ g.deleted) := by
    rcases hcase with ⟨hs, hd⟩ | ⟨e, traits, hf, hs, hd⟩
    · subst hs hd
      exact ⟨hk, List.Perm.refl _⟩
    · subst hs hd
      refine ⟨map_erase_keys_nodup _ _ hk, ?_⟩
      have hp := stored_runs_erase g._glyph_run_store e traits hk hf
      calc (stored_runs (map_erase g._glyph_run_store e) ++ (g.deleted ++ traits.map Prod.snd))
          _ = stored_runs (map_erase g._glyph_run_store e) ++ g.deleted ++ traits.map Prod.snd := by
              rw [List.append_assoc]
          _ |>.Perm (stored_runs (map_erase g._glyph_run_store e) ++ traits.map Prod.snd
                ++ g.deleted) := by
              rw [List.append_assoc, List.append_assoc]
              exact List.perm_append_comm.append_left _
          _ |>.Perm (stored_runs g._glyph_run_store ++ g.deleted) := hp.append_right _
  obtain ⟨hk1, hp1⟩ := h1
  have hk2 : ((map_insert store1 s []).1.map Prod.fst).Nodup := map_insert_keys_nodup _ _ _ hk1
  have hfind2 : map_find (map_insert store1 s []).1 s = some ((map_find store1 s).getD []) := by
    rw [map_find_insert, if_pos rfl]
  rw [hfind2] at hstore hb
  simp only [Option.getD_some] at hstore hb
  have hruns2 : stored_runs (map_insert store1 s []).1 = stored_runs store1 :=
    stored_runs_insert_nil store1 s
  refine ⟨by rw [hstore, map_set_keys]; exact hk2, ?_⟩
  rw [hstore, hdel]
  cases hft : map_find ((map_find store1 s).getD []) t with
  | none =>
    have hins : map_insert ((map_find store1 s).getD []) t r
        = ((t, r) :: (map_find store1 s).getD [], true) := by
      unfold map_insert
      rw [hft]
    rw [hins] at hb ⊢
    subst hb
    have hp2 := stored_runs_set_cons (map_insert store1 s []).1 s _ (t, r) hfind2
    rw [hruns2] at hp2
    simp only [if_true, List.singleton_append]
    exact (hp2.append_right _).trans (List.Perm.cons _ hp1)
  | some x =>
    have hins : map_insert ((map_find store1 s).getD []) t r
        = ((map_find store1 s).getD [], false) := by
      unfold map_insert
      rw [hft]
    rw [hins] at hb ⊢
    subst hb
    simp only [map_set_self _ _ _ hfind2, hruns2]
    simpa using hp1

theorem adopted_cons (p : string_id_type × uint128_t × glyph_run)
    (l : List (string_id_type × uint128_t × glyph_run)) (b : Bool) (flags : List Bool) :
    adopted (p :: l) (b :: flags) = (if b then [p.2.2] else []) ++ adopted l flags := by
  obtain ⟨s, t, r⟩ := p
  cases b <;> simp [adopted]

theorem rejected_cons (p : string_id_type × uint128_t × glyph_run)
    (l : List (string_id_type × uint128_t × glyph_run)) (b : Bool) (flags : List Bool) :
    rejected (p :: l) (b :: flags) = (if b then [] else [p.2.2]) ++ rejected l flags := by
  obtain ⟨s, t, r⟩ := p
  cases b <;> simp [rejected]

/-- Every run passed to a store is either adopted or rejected, according to the flag. -/
theorem adopted_rejected_perm :
    ∀ (l : List (string_id_type × uint128_t × glyph_run)) (flags : List Bool),
      flags.length = l.length →
      (adopted l flags ++ rejected l flags).Perm (l.map (fun p => p.2.2)) := by
  intro l
  induction l with
  | nil => intro flags _; simp [adopted, rejected]
  | cons p l ih =>
    intro flags hlen
    cases flags with
    | nil => simp at hlen
    | cons b flags =>
      have hlen2 : flags.length = l.length := by simpa using hlen
      rw [adopted_cons, rejected_cons, List.map_cons]
      cases b with
      | true =>
        simp only [if_true, List.singleton_append, List.nil_append, List.cons_append]
        exact List.Perm.cons _ (ih flags hlen2)
      | false =>
        simp only [Bool.false_eq_true, if_false, List.nil_append, List.singleton_append]
        exact List.perm_middle.trans (List.Perm.cons _ (ih flags hlen2))

/-- A sequence of stores from a reachable state whose store has distinct keys: the calls return,
the glyph store is untouched, and the runs held by the store together with the runs deleted so
far are those of before the calls plus the adopted runs. -/
theorem store_calls_owns {C : Nat} :
    ∀ (l : List (string_id_type × uint128_t × glyph_run)) (g : glyph_cache),
      Reachable C g → (g._glyph_run_store.map Prod.fst).Nodup →
      ∃ g1 flags, store_calls g l = some (g1, flags) ∧ flags.length = l.length ∧
        g1._glyph_store = g._glyph_store ∧
        (stored_runs g1._glyph_run_store ++ g1.deleted).Perm
          (adopted l flags ++ (stored_runs g._glyph_run_store ++ g.deleted)) := by
  intro l
  induction l with
  | nil =>
    intro g _ _
    exact ⟨g, [], rfl, rfl, rfl, by simp [adopted]⟩
  | cons p l ih =>
    obtain ⟨s, t, r⟩ := p
    intro g hr hk
    obtain ⟨g1, b, hstore⟩ := store_glyph_run_total hr s t r
    have hr1 : Reachable C g1 :=
      @Reachable.step C g g1 (cache_call.store_glyph_run s t r) (call_result.stored b) hr
        (by simp [call, hstore])
    obtain ⟨hk1, hp1⟩ := store_glyph_run_owns hk hstore
    obtain ⟨-, -, -, hgs1, -, -, -⟩ := store_glyph_run_shape hstore
    obtain ⟨g2, flags, hrest, hlen, hgs2, hp2⟩ := ih g1 hr1 hk1
    refine ⟨g2, b :: flags, by simp [store_calls, hstore, hrest], by simp [hlen],
      by rw [hgs2, hgs1], ?_⟩
    rw [adopted_cons]
    refine hp2.trans ?_
    refine (hp1.append_left _).trans ?_
    rw [← List.append_assoc]
    exact List.perm_append_comm.append_right _

/-! ## A lookup of a pending slot -/

/-- In a sequential run a lookup of a glyph whose slot is pending does not return: the caller
would wait for the completion of the initialisation that is in progress. -/
theorem lookup_glyph_pending {g : glyph_cache} {id : char_id_type}
    (h : map_find g._glyph_store id = some INIT_ONCE.pending) : lookup_glyph g id = none := by
  simp [lookup_glyph, h, InitOnceBeginInitialize]

/-- For a configured size `n ≤ 30`, initialising a fresh cache gives the cache of capacity
`min(2^n, 2^24)` from which the reachable states are counted. -/
theorem initialise_eq_create (n : Nat) (h : n ≤ 30) :
    glyph_cache_initialise (glyph_cache.create 0) n
      = some (glyph_cache.create (min (2 ^ n) (2 ^ 24))) := by
  simp only [glyph_cache_initialise, shl_one_int_small h, glyph_cache.create, lru_list.resize,
    capacity_small n h]

/-! # The claims -/

/-! ## C1: the least recently offered string is evicted -/

/-- C1, as stated, fails.  In the reachable state `sample_cache_1` (capacity 1, the index tracks
the one string `(1, 0)`, string `(2, 0)` is untracked), `store_glyph_run ((2, 0), (0, 0), 102)`
evicts `e = (1, 0)`; the string `(2, 0)` differs from `e`, and yet the lookup of
`((2, 0), (0, 0))` does not return what it returned before the call: it was absent and is now
the run `102`. -/
theorem store_glyph_run_changes_stored_key :
    Reachable 1 sample_cache_1 ∧
    sample_cache_1._glyph_run_lru._access_list.length = 1 ∧
    ((2, 0) : string_id_type) ∉ sample_cache_1._glyph_run_lru._access_list ∧
    (sample_cache_1._glyph_run_lru.access (2, 0)).2 = some (1, 0) ∧
    store_glyph_run sample_cache_1 (2, 0) (0, 0) 102 = some (sample_cache_2, true) ∧
    ((2, 0) : string_id_type) ≠ (1, 0) ∧
    lookup_glyph_run sample_cache_1 (2, 0) (0, 0) = none ∧
    lookup_glyph_run sample_cache_2 (2, 0) (0, 0) = some 102 := by
  refine ⟨sample_cache_1_reachable, ?_, ?_, ?_, ?_, ?_, ?_, ?_⟩ <;> decide

/-- C1, amended: in every reachable state `g` of capacity `C ≥ 1` (the state after a returning
sequence `cs` of calls on a fresh cache) whose LRU index tracks `C` strings and does not track
`s`, `store_glyph_run(s, t, r)` returns true and evicts exactly one string `e`, the least
recently offered one: the tracked strings are the `C` most recently offered distinct strings in
recency order and `e` is the last of them.  The string `e` had a retrievable run; afterwards
every trait of `e` is absent, `(s, t)` returns `r`, and every key `(s1, t1)` other than `(s, t)`
with `s1 ≠ e` returns exactly what it returned before the call. -/
theorem store_glyph_run_evicts_lru (C : Nat) (cs : List cache_call) (g : glyph_cache)
    (s : string_id_type) (t : uint128_t) (r : glyph_run)
    (hcs : calls (glyph_cache.create C) cs = some g) (hC : 1 ≤ C)
    (hfull : g._glyph_run_lru._access_list.length = C)
    (hs : s ∉ g._glyph_run_lru._access_list) :
    g._glyph_run_lru._access_list = (recency (offers cs)).take C ∧
    ∃ e g1,
      g._glyph_run_lru._access_list.getLast? = some e ∧
      (g._glyph_run_lru.access s).2 = some e ∧
      e ≠ s ∧
      store_glyph_run g s t r = some (g1, true) ∧
      (∃ t1, lookup_glyph_run g e t1 ≠ none) ∧
      (∀ t1, lookup_glyph_run g1 e t1 = none) ∧
      lookup_glyph_run g1 s t = some r ∧
      (∀ s1 t1, s1 ≠ e → ¬ (s1 = s ∧ t1 = t) →
        lookup_glyph_run g1 s1 t1 = lookup_glyph_run g s1 t1) :=
  ⟨lru_tracks_most_recent hC cs g hcs,
    store_evicts_aux C g s t r (reachable_calls cs _ g Reachable.create hcs) hC hfull hs⟩

theorem store_glyph_run_evicts_lru_witness :
    calls (glyph_cache.create 1) [cache_call.store_glyph_run (1, 0) (0, 0) 101]
      = some sample_cache_1 ∧
    1 ≤ 1 ∧
    sample_cache_1._glyph_run_lru._access_list.length = 1 ∧
    ((2, 0) : string_id_type) ∉ sample_cache_1._glyph_run_lru._access_list ∧
    sample_cache_1._glyph_run_lru._access_list
      = (recency (offers [cache_call.store_glyph_run (1, 0) (0, 0) 101])).take 1 ∧
    ∃ e g1,
      sample_cache_1._glyph_run_lru._access_list.getLast? = some e ∧
      (sample_cache_1._glyph_run_lru.access (2, 0)).2 = some e ∧
      e ≠ (2, 0) ∧
      store_glyph_run sample_cache_1 (2, 0) (0, 0) 102 = some (g1, true) ∧
      (∃ t1, lookup_glyph_run sample_cache_1 e t1 ≠ none) ∧
      (∀ t1, lookup_glyph_run g1 e t1 = none) ∧
      lookup_glyph_run g1 (2, 0) (0, 0) = some 102 ∧
      (∀ s1 t1, s1 ≠ e → ¬ (s1 = (2, 0) ∧ t1 = (0, 0)) →
        lookup_glyph_run g1 s1 t1 = lookup_glyph_run sample_cache_1 s1 t1) :=
  ⟨by decide, by decide, by decide, by decide,
    store_glyph_run_evicts_lru 1 [cache_call.store_glyph_run (1, 0) (0, 0) 101] sample_cache_1
      (2, 0) (0, 0) 102 (by decide) (by decide) (by decide) (by decide)⟩

/-! ## C2: the last `C` of a sequence of distinct strings are kept -/

/-- C2: for every capacity `C ≥ 1` and every sequence `l` of runs for pairwise distinct strings,
stored in order under a single trait `t0` into an initially empty cache, every store returns and
afterwards the lookup of the `i`-th string (counted from 0, `n` the length of `l`) returns its
run when `n ≤ i + C` (it is among the last `C`) and is absent otherwise. -/
theorem store_runs_keeps_last (C : Nat) (t0 : uint128_t)
    (l : List (string_id_type × glyph_run)) (hC : 1 ≤ C) (hd : (l.map Prod.fst).Nodup) :
    ∃ g, store_runs (glyph_cache.create C) t0 l = some g ∧
      ∀ (i : Nat) (hi : i < l.length),
        lookup_glyph_run g (l.get ⟨i, hi⟩).1 t0
          = if l.length ≤ i + C then some (l.get ⟨i, hi⟩).2 else none := by
  obtain ⟨g, hruns, hr, hlist, hlook⟩ :=
    store_runs_spec C t0 hC l [] (glyph_cache.create C) Reachable.create
      (by simp [glyph_cache.create, lru_list.resize]) (by simp) (by simpa using hd)
  refine ⟨g, hruns, ?_⟩
  intro i hi
  simp only [List.nil_append] at hlist hlook
  have hi2 : i < (l.map Prod.fst).length := by simpa using hi
  have hkey : (l.get ⟨i, hi⟩).1 = (l.map Prod.fst)[i] := by simp
  have hmem : (l.get ⟨i, hi⟩).1 ∈ g._glyph_run_lru._access_list ↔ l.length ≤ i + C := by
    rw [hlist, List.take_reverse, List.mem_reverse, hkey, nodup_getElem_mem_drop hd hi2]
    simp only [List.length_map]
    omega
  by_cases hc : l.length ≤ i + C
  · rw [if_pos hc]
    exact hlook _ _ (hmem.mpr hc) (List.get_mem l i hi)
  · rw [if_neg hc]
    have hnot : (l.get ⟨i, hi⟩).1 ∉ g._glyph_run_lru._access_list := fun h => hc (hmem.mp h)
    have : map_find g._glyph_run_store (l.get ⟨i, hi⟩).1 = none := by
      by_contra hcon
      exact hnot ((hr.inv.keys _).mpr hcon)
    unfold lookup_glyph_run
    rw [this]

theorem store_runs_keeps_last_witness :
    1 ≤ 4 ∧ (sample_runs.map Prod.fst).Nodup ∧
    ∃ g, store_runs (glyph_cache.create 4) (0, 0) sample_runs = some g ∧
      lookup_glyph_run g (1, 0) (0, 0) = none ∧
      lookup_glyph_run g (2, 0) (0, 0) = some 102 ∧
      lookup_glyph_run g (3, 0) (0, 0) = some 103 ∧
      lookup_glyph_run g (4, 0) (0, 0) = some 104 ∧
      lookup_glyph_run g (5, 0) (0, 0) = some 105 := by
  refine ⟨by decide, by decide, ?_⟩
  obtain ⟨g, hg, h⟩ := store_runs_keeps_last 4 (0, 0) sample_runs (by decide) (by decide)
  exact ⟨g, hg, h 0 (by decide), h 1 (by decide), h 2 (by decide), h 3 (by decide),
    h 4 (by decide)⟩

/-! ## C3: storing under an absent key -/

/-- C3: in every reachable state in which `lookup_glyph_run(s, t)` is absent,
`store_glyph_run(s, t, r)` returns true and immediately afterwards `lookup_glyph_run(s, t)`
returns `r`. -/
theorem store_glyph_run_absent (C : Nat) (g : glyph_cache) (s : string_id_type)
    (t : uint128_t) (r : glyph_run) (hr : Reachable C g)
    (habs : lookup_glyph_run g s t = none) :
    ∃ g1, store_glyph_run g s t r = some (g1, true) ∧ lookup_glyph_run g1 s t = some r :=
  store_absent_aux C g s t r hr habs

theorem store_glyph_run_absent_witness :
    Reachable 1 sample_cache_1 ∧
    lookup_glyph_run sample_cache_1 (1, 0) (7, 7) = none ∧
    ∃ g1, store_glyph_run sample_cache_1 (1, 0) (7, 7) 103 = some (g1, true) ∧
      lookup_glyph_run g1 (1, 0) (7, 7) = some 103 :=
  ⟨sample_cache_1_reachable, by decide,
    store_glyph_run_absent 1 sample_cache_1 (1, 0) (7, 7) 103 sample_cache_1_reachable
      (by decide)⟩

/-! ## C4: storing under a present key -/

/-- C4: in every reachable state in which `lookup_glyph_run(s, t)` returns a run `r1`,
`store_glyph_run(s, t, r2)` returns false for every run `r2`, and afterwards
`lookup_glyph_run(s, t)` still returns `r1`; indeed no lookup changes, nothing is evicted and
nothing is deleted. -/
theorem store_glyph_run_duplicate (C : Nat) (g : glyph_cache) (s : string_id_type)
    (t : uint128_t) (r1 r2 : glyph_run) (hr : Reachable C g)
    (hpres : lookup_glyph_run g s t = some r1) :
    ∃ g1, store_glyph_run g s t r2 = some (g1, false) ∧
      lookup_glyph_run g1 s t = some r1 ∧
      (∀ s1 t1, lookup_glyph_run g1 s1 t1 = lookup_glyph_run g s1 t1) ∧
      (g._glyph_run_lru.access s).2 = none ∧
      g1.deleted = g.deleted := by
  have hinv := hr.inv
  have hkey : map_find g._glyph_run_store s ≠ none := by
    intro hc
    simp [lookup_glyph_run, hc] at hpres
  have hmem : s ∈ g._glyph_run_lru._access_list := (hinv.keys s).mpr hkey
  have hacc : (g._glyph_run_lru.access s).2 = none := by rw [access_tracked hmem]
  obtain ⟨g1, b, hstore⟩ := store_glyph_run_total hr s t r2
  obtain ⟨hb, hlook⟩ := lookup_store_no_evict hstore hacc
  rw [hpres] at hb hlook
  simp only [Option.isNone_some] at hb
  subst hb
  have hall : ∀ s1 t1, lookup_glyph_run g1 s1 t1 = lookup_glyph_run g s1 t1 := by
    intro s1 t1
    rw [hlook]
    by_cases hc : s1 = s ∧ t1 = t
    · rw [if_pos hc, hc.1, hc.2, hpres]
      rfl
    · rw [if_neg hc]
  refine ⟨g1, hstore, by rw [hall, hpres], hall, hacc, ?_⟩
  obtain ⟨store1, deleted1, hcase, -, -, hdel, -, -⟩ := store_glyph_run_find hstore
  rcases hcase with ⟨-, -, hd⟩ | ⟨e, traits, hacc2, -, -, -⟩
  · rw [hdel, hd]
  · rw [hacc] at hacc2
    simp at hacc2

theorem store_glyph_run_duplicate_witness :
    Reachable 1 sample_cache_1 ∧
    lookup_glyph_run sample_cache_1 (1, 0) (0, 0) = some 101 ∧
    ∃ g1, store_glyph_run sample_cache_1 (1, 0) (0, 0) 999 = some (g1, false) ∧
      lookup_glyph_run g1 (1, 0) (0, 0) = some 101 ∧
      (∀ s1 t1, lookup_glyph_run g1 s1 t1 = lookup_glyph_run sample_cache_1 s1 t1) ∧
      (sample_cache_1._glyph_run_lru.access (1, 0)).2 = none ∧
      g1.deleted = sample_cache_1.deleted :=
  ⟨sample_cache_1_reachable, by decide,
    store_glyph_run_duplicate 1 sample_cache_1 (1, 0) (0, 0) 101 999 sample_cache_1_reachable
      (by decide)⟩

/-! ## C5: lookups are pure reads -/

/-- C5: `lookup_glyph_run` is a pure read.  The call returns, leaves the whole cache state (run
store and LRU recency order included) unchanged, a second lookup gives the same result, and any
later sequence of `store_glyph_run` calls evicts exactly the same strings as it would have
without the lookup. -/
theorem lookup_glyph_run_pure (g : glyph_cache) (s : string_id_type) (t : uint128_t) :
    ∃ g1 res, call g (cache_call.lookup_glyph_run s t) = some (g1, res) ∧
      res = call_result.run (lookup_glyph_run g s t) ∧
      g1._glyph_run_store = g._glyph_run_store ∧
      g1._glyph_run_lru = g._glyph_run_lru ∧
      call g1 (cache_call.lookup_glyph_run s t) = some (g1, res) ∧
      ∀ later, evictions g1 later = evictions g later :=
  ⟨g, call_result.run (lookup_glyph_run g s t), rfl, rfl, rfl, rfl, rfl, fun _ => rfl⟩

/-! ## C6: the bit packing of a glyph identity -/

/-- C6: for every render trait `(lo, hi)` (128-bit or not), every 32-bit index and every flag,
`get_char_id` returns the value whose low word is `lo` and whose high word is
`((hi * 2^33) mod 2^64) | (flag * 2^32) | index`; the three fields do not overlap: the high word
is the sum of the three fields, it fits in 64 bits, bits 0-31 read back the index, bit 32 reads
back the flag and bits 33-63 are the low 31 bits of `hi`. -/
theorem get_char_id_packing (lo hi index : Nat) (flag : Bool) (hindex : index < 2 ^ 32) :
    (get_char_id (lo, hi) index flag).1 = lo ∧
    (get_char_id (lo, hi) index flag).2
      = ((hi * 2 ^ 33) % 2 ^ 64) ||| (flag.toNat * 2 ^ 32) ||| index ∧
    (get_char_id (lo, hi) index flag).2
      = (hi * 2 ^ 33) % 2 ^ 64 + flag.toNat * 2 ^ 32 + index ∧
    (get_char_id (lo, hi) index flag).2 < 2 ^ 64 ∧
    (get_char_id (lo, hi) index flag).2 % 2 ^ 32 = index ∧
    (get_char_id (lo, hi) index flag).2 / 2 ^ 32 % 2 = flag.toNat ∧
    (get_char_id (lo, hi) index flag).2 / 2 ^ 33 = hi % 2 ^ 31 := by
  have hs := get_char_id_snd (lo, hi) index flag hindex
  have hf := toNat_lt_two flag
  have hm : (hi * 2 ^ 33) % 2 ^ 64 = 2 ^ 33 * (hi % 2 ^ 31) := by omega
  simp only at hs
  refine ⟨rfl, ?_, ?_, ?_, ?_, ?_, ?_⟩
  · show ((hi <<< 33) % 2 ^ 64 ||| flag.toNat <<< 32 ||| index) = _
    rw [Nat.shiftLeft_eq, Nat.shiftLeft_eq]
  · rw [hs, hm]; omega
  · rw [hs]; omega
  · rw [hs]; omega
  · rw [hs]; omega
  · rw [hs]; omega

theorem get_char_id_packing_witness :
    (7 : Nat) < 2 ^ 32 ∧
    (get_char_id (5, 2 ^ 63 + 3) 7 true).1 = 5 ∧
    (get_char_id (5, 2 ^ 63 + 3) 7 true).2
      = (((2 ^ 63 + 3) * 2 ^ 33) % 2 ^ 64) ||| (true.toNat * 2 ^ 32) ||| 7 ∧
    (get_char_id (5, 2 ^ 63 + 3) 7 true).2
      = ((2 ^ 63 + 3) * 2 ^ 33) % 2 ^ 64 + true.toNat * 2 ^ 32 + 7 ∧
    (get_char_id (5, 2 ^ 63 + 3) 7 true).2 < 2 ^ 64 ∧
    (get_char_id (5, 2 ^ 63 + 3) 7 true).2 % 2 ^ 32 = 7 ∧
    (get_char_id (5, 2 ^ 63 + 3) 7 true).2 / 2 ^ 32 % 2 = true.toNat ∧
    (get_char_id (5, 2 ^ 63 + 3) 7 true).2 / 2 ^ 33 = (2 ^ 63 + 3) % 2 ^ 31 :=
  ⟨by norm_num, get_char_id_packing 5 (2 ^ 63 + 3) 7 true (by norm_num)⟩

/-! ## C7: injectivity of the glyph identity -/

/-- C7, as stated, fails: the render traits `(0, 0)` and `(0, 2^31)` are well formed and differ in
bit 96 (bit 31 of the high word), which lies within the low 96 bits; they agree on bits 97-128;
and yet they give the same glyph identity for index 0 and flag false. -/
theorem get_char_id_bit96_collision :
    uint128_t.wf (0, 0) ∧ uint128_t.wf (0, 2 ^ 31) ∧
    get_char_id (0, 0) 0 false = get_char_id (0, 2 ^ 31) 0 false ∧
    ((0, 0) : uint128_t) ≠ (0, 2 ^ 31) ∧
    (0 : Nat) % 2 ^ 32 ≠ 2 ^ 31 % 2 ^ 32 ∧
    (0 : Nat) / 2 ^ 32 = 2 ^ 31 / 2 ^ 32 := by
  refine ⟨⟨by norm_num, by norm_num⟩, ⟨by norm_num, by norm_num⟩, ?_, ?_, by norm_num,
    by norm_num⟩
  · decide
  · decide

/-- C7, amended: for 32-bit indices, two requests yield the same glyph identity exactly when they
have the same index, the same flag and render traits that agree on their low 95 bits (bits 1-95:
the low word and the low 31 bits of the high word); equivalently, two requests whose traits agree
on bits 96-128 yield the same glyph identity iff they share render trait, flag and index. -/
theorem get_char_id_eq_iff (t1 t2 : uint128_t) (i1 i2 : Nat) (f1 f2 : Bool)
    (h1 : i1 < 2 ^ 32) (h2 : i2 < 2 ^ 32) :
    (get_char_id t1 i1 f1 = get_char_id t2 i2 f2 ↔
      i1 = i2 ∧ f1 = f2 ∧ t1.1 = t2.1 ∧ t1.2 % 2 ^ 31 = t2.2 % 2 ^ 31) ∧
    (t1.2 / 2 ^ 31 = t2.2 / 2 ^ 31 →
      (get_char_id t1 i1 f1 = get_char_id t2 i2 f2 ↔ t1 = t2 ∧ i1 = i2 ∧ f1 = f2)) := by
  have e1 := get_char_id_snd t1 i1 f1 h1
  have e2 := get_char_id_snd t2 i2 f2 h2
  have b1 := toNat_lt_two f1
  have b2 := toNat_lt_two f2
  have main : get_char_id t1 i1 f1 = get_char_id t2 i2 f2 ↔
      i1 = i2 ∧ f1 = f2 ∧ t1.1 = t2.1 ∧ t1.2 % 2 ^ 31 = t2.2 % 2 ^ 31 := by
    constructor
    · intro h
      have hfst : (get_char_id t1 i1 f1).1 = (get_char_id t2 i2 f2).1 := congrArg Prod.fst h
      have hsnd : (get_char_id t1 i1 f1).2 = (get_char_id t2 i2 f2).2 := congrArg Prod.snd h
      rw [e1, e2] at hsnd
      have hf : f1.toNat = f2.toNat := by omega
      exact ⟨by omega, toNat_inj hf, hfst, by omega⟩
    · rintro ⟨hi, hf, hfst, hsnd⟩
      subst hi hf
      apply Prod.ext
      · exact hfst
      · rw [e1, e2, hsnd]
  refine ⟨main, fun hhigh => ?_⟩
  rw [main]
  constructor
  · rintro ⟨hi, hf, hfst, hsnd⟩
    refine ⟨Prod.ext hfst ?_, hi, hf⟩
    omega
  · rintro ⟨ht, hi, hf⟩
    subst ht
    exact ⟨hi, hf, rfl, rfl⟩

theorem get_char_id_eq_iff_witness :
    (4 : Nat) < 2 ^ 32 ∧
    (get_char_id (1, 2 ^ 31 + 9) 4 true = get_char_id (1, 9) 4 true ↔
      4 = 4 ∧ true = true ∧ (1 : Nat) = 1 ∧ (2 ^ 31 + 9) % 2 ^ 31 = 9 % 2 ^ 31) ∧
    ((2 ^ 31 + 9) / 2 ^ 31 = 9 / 2 ^ 31 →
      (get_char_id (1, 2 ^ 31 + 9) 4 true = get_char_id (1, 9) 4 true ↔
        ((1, 2 ^ 31 + 9) : uint128_t) = (1, 9) ∧ 4 = 4 ∧ true = true)) :=
  ⟨by norm_num,
    get_char_id_eq_iff (1, 2 ^ 31 + 9) (1, 9) 4 4 true true (by norm_num) (by norm_num)⟩

/-! ## C8: the high trait bits are ignored -/

/-- C8: render traits that agree on bits 1-96 (the low word and the low 32 bits of the high word)
give the same glyph identity for every 32-bit index and every flag, so changing only bits 97-128
of the render trait does not change the glyph identity. -/
theorem get_char_id_ignores_high_bits (t1 t2 : uint128_t) (i : Nat) (f : Bool)
    (hi : i < 2 ^ 32) (hlow : t1.1 = t2.1) (hmid : t1.2 % 2 ^ 32 = t2.2 % 2 ^ 32) :
    get_char_id t1 i f = get_char_id t2 i f := by
  apply Prod.ext
  · exact hlow
  · rw [get_char_id_snd t1 i f hi, get_char_id_snd t2 i f hi]
    omega

theorem get_char_id_ignores_high_bits_witness :
    (7 : Nat) < 2 ^ 32 ∧ (3 : Nat) = 3 ∧ (2 ^ 40 + 5) % 2 ^ 32 = (2 ^ 63 + 5) % 2 ^ 32 ∧
    get_char_id (3, 2 ^ 40 + 5) 7 true = get_char_id (3, 2 ^ 63 + 5) 7 true :=
  ⟨by norm_num, rfl, by norm_num,
    get_char_id_ignores_high_bits (3, 2 ^ 40 + 5) (3, 2 ^ 63 + 5) 7 true
      (by norm_num) rfl (by norm_num)⟩

/-! ## C9: the lifecycle of a glyph slot -/

/-- C9: for every glyph id with no slot, `lookup_glyph(id)` returns `NULL` (pending, no resource)
and creates the slot, reserved; a following `store_glyph(id, r)` with a valid glyph `r` returns
true; and from then on, whatever calls intervene (on other glyph ids, on the glyph-run cache with
its LRU evictions, or even on `id` itself), every `lookup_glyph(id)` returns `r` and leaves the
cache as it is: glyph entries are never evicted. -/
theorem glyph_slot_lifecycle (g : glyph_cache) (id : char_id_type) (r : FT_Glyph)
    (hno : map_find g._glyph_store id = none) :
    ∃ g1 g2,
      lookup_glyph g id = some (g1, none) ∧
      map_find g1._glyph_store id = some INIT_ONCE.pending ∧
      store_glyph g1 id (some r) = some (g2, true) ∧
      ∀ cs g3, calls g2 cs = some g3 → lookup_glyph g3 id = some (g3, some r) := by
  have h1 : map_find ({ g with _glyph_store := (id, INIT_ONCE.pending) :: g._glyph_store }
      : glyph_cache)._glyph_store id = some INIT_ONCE.pending := by
    simp [map_find_cons]
  refine ⟨{ g with _glyph_store := (id, INIT_ONCE.pending) :: g._glyph_store },
    { g with _glyph_store := (id, INIT_ONCE.complete (some r)) :: g._glyph_store },
    lookup_glyph_absent hno, h1, ?_, ?_⟩
  · rw [store_glyph_pending (some r) h1]
    simp [map_set]
  · intro cs g3 hcs
    apply lookup_glyph_complete
    refine complete_slot_stable_calls cs _ g3 ?_ hcs
    simp [map_find_cons]

theorem glyph_slot_lifecycle_witness :
    map_find sample_cache_1._glyph_store (9, 9) = none ∧
    ∃ g1 g2,
      lookup_glyph sample_cache_1 (9, 9) = some (g1, none) ∧
      map_find g1._glyph_store (9, 9) = some INIT_ONCE.pending ∧
      store_glyph g1 (9, 9) (some 500) = some (g2, true) ∧
      ∀ cs g3, calls g2 cs = some g3 → lookup_glyph g3 (9, 9) = some (g3, some 500) :=
  ⟨by decide, glyph_slot_lifecycle sample_cache_1 (9, 9) 500 (by decide)⟩

/-! ## C10: a failed render -/

/-- C10, as stated, fails.  The slot of glyph `(9, 9)` is pending in `sample_pending`;
`store_glyph` with the failure marker (`NULL`) returns false and leaves the slot uninitialised
(`sample_failed`); the next `lookup_glyph` then returns `NULL` and leaves the slot pending, which
is exactly what the lookup of a glyph never seen before returns and does: the failure is not
recorded, the result is not distinguishable from "pending", and the caller is asked to compute
again. -/
theorem store_glyph_failure_forgotten :
    map_find sample_pending._glyph_store (9, 9) = some INIT_ONCE.pending ∧
    store_glyph sample_pending (9, 9) none = some (sample_failed, false) ∧
    lookup_glyph sample_failed (9, 9) = some (sample_pending, none) ∧
    lookup_glyph (glyph_cache.create 1) (9, 9) = some (sample_pending, none) := by
  refine ⟨?_, ?_, ?_, ?_⟩ <;> decide

/-- C10, amended: for every glyph id whose slot is pending, `store_glyph(id, failure)` returns
false and retains no resource: it leaves the slot uninitialised.  The next `lookup_glyph(id)`
returns `NULL` and sets the slot pending again, putting the cache back in the state before the
failed store, so the caller is asked to compute again. -/
theorem store_glyph_failure_resets (g : glyph_cache) (id : char_id_type)
    (hpend : map_find g._glyph_store id = some INIT_ONCE.pending) :
    ∃ g1, store_glyph g id none = some (g1, false) ∧
      map_find g1._glyph_store id = some INIT_ONCE.uninitialized ∧
      lookup_glyph g1 id = some (g, none) := by
  have h1 : map_find
      ({ g with _glyph_store := (map_set g._glyph_store id INIT_ONCE.uninitialized) }
        : glyph_cache)._glyph_store id
      = some INIT_ONCE.uninitialized := by
    simp [map_find_set, hpend]
  refine ⟨{ g with _glyph_store := map_set g._glyph_store id INIT_ONCE.uninitialized },
    ?_, h1, ?_⟩
  · rw [store_glyph_pending none hpend]
    rfl
  · rw [lookup_glyph_uninitialized h1]
    simp [map_set_set, map_set_self _ _ _ hpend]

theorem store_glyph_failure_resets_witness :
    map_find sample_pending._glyph_store (9, 9) = some INIT_ONCE.pending ∧
    ∃ g1, store_glyph sample_pending (9, 9) none = some (g1, false) ∧
      map_find g1._glyph_store (9, 9) = some INIT_ONCE.uninitialized ∧
      lookup_glyph g1 (9, 9) = some (sample_pending, none) :=
  ⟨by decide, store_glyph_failure_resets sample_pending (9, 9) (by decide)⟩

/-! ## C11: a second completion of a glyph slot -/

/-- C11, as stated, fails.  The slot of glyph `(9, 9)` is complete with glyph `500` in
`sample_complete` (reached from a fresh cache by a lookup and a store); a second
`store_glyph((9, 9), 600)` is not reported as an error: it returns true, the value it returns for
a successful store.  The cache is unchanged and the lookup still returns `500`. -/
theorem store_glyph_twice_returns_true :
    calls (glyph_cache.create 1)
      [cache_call.lookup_glyph (9, 9), cache_call.store_glyph (9, 9) (some 500)]
      = some sample_complete ∧
    map_find sample_complete._glyph_store (9, 9) = some (INIT_ONCE.complete (some 500)) ∧
    store_glyph sample_complete (9, 9) (some 600) = some (sample_complete, true) ∧
    lookup_glyph sample_complete (9, 9) = some (sample_complete, some 500) := by
  refine ⟨?_, ?_, ?_, ?_⟩ <;> decide

/-- C11, amended: for every glyph id whose slot is already complete with glyph `r1`, a second
`store_glyph(id, r2)` has no effect on the cache (the one-time cell rejects the completion) but is
not reported: the call returns true, as a first store does, and `lookup_glyph(id)` continues to
return `r1`. -/
theorem store_glyph_twice (g : glyph_cache) (id : char_id_type) (r1 r2 : FT_Glyph)
    (hdone : map_find g._glyph_store id = some (INIT_ONCE.complete (some r1))) :
    (InitOnceComplete (INIT_ONCE.complete (some r1)) false (some r2)).2 = false ∧
    store_glyph g id (some r2) = some (g, true) ∧
    lookup_glyph g id = some (g, some r1) := by
  refine ⟨rfl, ?_, lookup_glyph_complete hdone⟩
  simp [store_glyph, hdone, InitOnceComplete, map_set_self _ _ _ hdone]

theorem store_glyph_twice_witness :
    map_find sample_complete._glyph_store (9, 9) = some (INIT_ONCE.complete (some 500)) ∧
    (InitOnceComplete (INIT_ONCE.complete (some 500)) false (some 600)).2 = false ∧
    store_glyph sample_complete (9, 9) (some 600) = some (sample_complete, true) ∧
    lookup_glyph sample_complete (9, 9) = some (sample_complete, some 500) :=
  ⟨by decide, store_glyph_twice sample_complete (9, 9) 500 600 (by decide)⟩

/-! ## C13: every adopted run is deleted exactly once -/

/-- C13: for every sequence `l` of `store_glyph_run` calls on an initially empty cache (of any
capacity) with pairwise distinct run objects, followed by the destructor, every call returns, the
destructor returns, and the runs deleted by the cache over its whole life (by evictions, then by
the destructor) are exactly the runs whose store returned true, each of them deleted exactly
once; no run whose store returned false is ever deleted; and after any number `k` of the calls
no run that is still retrievable has been deleted. -/
theorem adopted_runs_deleted_once (C : Nat) (l : List (string_id_type × uint128_t × glyph_run))
    (hd : (l.map (fun p => p.2.2)).Nodup) :
    ∃ g flags released D,
      store_calls (glyph_cache.create C) l = some (g, flags) ∧
      flags.length = l.length ∧
      glyph_cache.destroy g = some (released, D) ∧
      D = g.deleted ++ stored_runs g._glyph_run_store ∧
      D.Perm (adopted l flags) ∧
      (∀ r ∈ adopted l flags, D.count r = 1) ∧
      (∀ r ∈ rejected l flags, r ∉ D) ∧
      (∀ k, ∃ gk fk, store_calls (glyph_cache.create C) (l.take k) = some (gk, fk) ∧
        ∀ s t r, lookup_glyph_run gk s t = some r → r ∉ gk.deleted) := by
  have hk0 : ((glyph_cache.create C)._glyph_run_store.map Prod.fst).Nodup := by
    simp [glyph_cache.create]
  obtain ⟨g, flags, hcalls, hlen, hgs, hp⟩ :=
    store_calls_owns l (glyph_cache.create C) Reachable.create hk0
  have hp2 : (g.deleted ++ stored_runs g._glyph_run_store).Perm (adopted l flags) := by
    refine List.perm_append_comm.trans (hp.trans ?_)
    simp [glyph_cache.create, stored_runs]
  have har := adopted_rejected_perm l flags hlen
  have hnd : (adopted l flags ++ rejected l flags).Nodup := har.nodup_iff.mpr hd
  obtain ⟨hna, -, hdisj⟩ := List.nodup_append.mp hnd
  have hdestroy : glyph_cache.destroy g
      = some ([], g.deleted ++ stored_runs g._glyph_run_store) := by
    have : g._glyph_store = [] := by rw [hgs]; rfl
    simp [glyph_cache.destroy, this, done_glyphs]
  refine ⟨g, flags, [], _, hcalls, hlen, hdestroy, rfl, hp2, ?_, ?_, ?_⟩
  · intro r hr
    rw [hp2.count_eq]
    exact List.count_eq_one_of_mem hna hr
  · intro r hr hin
    exact hdisj (hp2.mem_iff.mp hin) hr
  · intro k
    have hdk : ((l.take k).map (fun p => p.2.2)).Nodup :=
      hd.sublist ((List.take_sublist k l).map _)
    obtain ⟨gk, fk, hcallsk, hlenk, -, hpk⟩ :=
      store_calls_owns (l.take k) (glyph_cache.create C) Reachable.create hk0
    have hpk2 : (stored_runs gk._glyph_run_store ++ gk.deleted).Perm (adopted (l.take k) fk) := by
      refine hpk.trans ?_
      simp [glyph_cache.create, stored_runs]
    have hark := adopted_rejected_perm (l.take k) fk hlenk
    have hndk : (adopted (l.take k) fk ++ rejected (l.take k) fk).Nodup :=
      hark.nodup_iff.mpr hdk
    have hnk : (stored_runs gk._glyph_run_store ++ gk.deleted).Nodup :=
      hpk2.nodup_iff.mpr (List.nodup_append.mp hndk).1
    refine ⟨gk, fk, hcallsk, ?_⟩
    intro s t r hlook hdel
    exact (List.nodup_append.mp hnk).2.2 (lookup_mem_stored_runs hlook) hdel

theorem adopted_runs_deleted_once_witness :
    (sample_stores_2.map (fun p => p.2.2)).Nodup ∧
    ∃ g flags released D,
      store_calls (glyph_cache.create 1) sample_stores_2 = some (g, flags) ∧
      flags.length = sample_stores_2.length ∧
      glyph_cache.destroy g = some (released, D) ∧
      D = g.deleted ++ stored_runs g._glyph_run_store ∧
      D.Perm (adopted sample_stores_2 flags) ∧
      (∀ r ∈ adopted sample_stores_2 flags, D.count r = 1) ∧
      (∀ r ∈ rejected sample_stores_2 flags, r ∉ D) ∧
      (∀ k, ∃ gk fk, store_calls (glyph_cache.create 1) (sample_stores_2.take k)
          = some (gk, fk) ∧
        ∀ s t r, lookup_glyph_run gk s t = some r → r ∉ gk.deleted) :=
  ⟨by decide, adopted_runs_deleted_once 1 sample_stores_2 (by decide)⟩

/-! ## C14: the capacity set by `initialize` -/

/-- C14 fails on the code for `server_cache_size = 31`: in 32-bit `int` arithmetic `1 << 31` is
`-2147483648`, which is less than `16777216`, so `min` yields it and `resize` receives
`2147483648 = 2^31` as its unsigned capacity: more than `2^24`, and not `min(2^31, 2^24)`.  For
`server_cache_size = 32` the shift is undefined and `initialize` has no result. -/
theorem initialise_shift_overflow :
    shl_one_int 31 = some (-2147483648) ∧
    min_int (-2147483648) 16777216 = -2147483648 ∧
    (glyph_cache_initialise (glyph_cache.create 0) 31).map (fun g => g._glyph_run_lru._capacity)
      = some 2147483648 ∧
    ¬ (2147483648 ≤ 2 ^ 24) ∧
    min (2 ^ 31) (2 ^ 24) = 16777216 ∧
    glyph_cache_initialise (glyph_cache.create 0) 32 = none := by
  refine ⟨?_, ?_, ?_, ?_, ?_, ?_⟩ <;> decide

/-! ## C15: the occupancy bound -/

/-- C15: for every capacity `C ≥ 1` and every sequence `cs` of `store_glyph_run` and
`lookup_glyph_run` calls starting from the empty cache, after any number `k` of these calls the
calls have returned and the number of distinct string ids that have at least one retrievable run
is at most `C`: this holds for the count `occupancy`, which lists exactly the strings with a
retrievable run, and for every list of distinct strings that all have a retrievable run. -/
theorem occupancy_bounded (C : Nat) (cs : List cache_call) (hC : 1 ≤ C)
    (hrun : ∀ c ∈ cs, is_run_call c = true) (k : Nat) :
    ∃ g, calls (glyph_cache.create C) (cs.take k) = some g ∧
      occupancy g ≤ C ∧
      (∀ s, s ∈ occupied g ↔ ∃ t r, lookup_glyph_run g s t = some r) ∧
      (∀ L : List string_id_type, L.Nodup →
        (∀ s ∈ L, ∃ t r, lookup_glyph_run g s t = some r) → L.length ≤ C) := by
  obtain ⟨g, hcalls, hr⟩ := run_calls_total (cs.take k) (glyph_cache.create C) Reachable.create
    (fun c hc => hrun c (List.mem_of_mem_take hc))
  refine ⟨g, hcalls, ?_, mem_occupied g, retrievable_le_capacity hr.inv hC⟩
  exact retrievable_le_capacity hr.inv hC (occupied g) (occupied_nodup g)
    (fun s hs => (mem_occupied g s).mp hs)

theorem occupancy_bounded_witness :
    1 ≤ 2 ∧ (∀ c ∈ sample_run_calls, is_run_call c = true) ∧
    ∃ g, calls (glyph_cache.create 2) (sample_run_calls.take 6) = some g ∧
      occupancy g ≤ 2 ∧
      (∀ s, s ∈ occupied g ↔ ∃ t r, lookup_glyph_run g s t = some r) ∧
      (∀ L : List string_id_type, L.Nodup →
        (∀ s ∈ L, ∃ t r, lookup_glyph_run g s t = some r) → L.length ≤ 2) :=
  ⟨by decide, by decide,
    occupancy_bounded 2 sample_run_calls (by decide) (by decide) 6⟩

/-! ## C16: the LRU index works at string granularity -/

/-- C16: in every reachable state, for every string id `s` that already has at least one stored
run, `store_glyph_run(s, t, r)` with any trait `t` evicts nothing (the LRU index reports no
eviction and nothing is deleted): every `(s1, t1)` that was retrievable before the call is
retrievable with the same run afterwards, whether or not the index is at capacity.  Hence the
number of trait variants under one string is not limited by the capacity: runs stored under `s`
for any list `vs` of traits, however long, are all retrievable afterwards, together with
everything that was retrievable before. -/
theorem store_tracked_string_evicts_nothing (C : Nat) (g : glyph_cache) (s : string_id_type)
    (hr : Reachable C g) (hs : ∃ t0 r0, lookup_glyph_run g s t0 = some r0) :
    (g._glyph_run_lru.access s).2 = none ∧
    (∀ t r, ∃ g1 b, store_glyph_run g s t r = some (g1, b) ∧ g1.deleted = g.deleted ∧
      ∀ s1 t1 x, lookup_glyph_run g s1 t1 = some x → lookup_glyph_run g1 s1 t1 = some x) ∧
    (∀ vs, ∃ g2, store_variants g s vs = some g2 ∧ g2.deleted = g.deleted ∧
      (∀ s1 t1 x, lookup_glyph_run g s1 t1 = some x → lookup_glyph_run g2 s1 t1 = some x) ∧
      ∀ v ∈ vs, ∃ x, lookup_glyph_run g2 s v.1 = some x) := by
  obtain ⟨t0, r0, h0⟩ := hs
  have hmem : s ∈ g._glyph_run_lru._access_list := tracked_of_retrievable hr h0
  refine ⟨by rw [access_tracked hmem], ?_, fun vs => store_variants_keep s vs g hr hmem⟩
  intro t r
  obtain ⟨-, g1, hstore, -, hdel, -, hlook⟩ := store_tracked t r hr hmem
  exact ⟨g1, _, hstore, hdel, store_tracked_keeps hlook⟩

theorem store_tracked_string_evicts_nothing_witness :
    Reachable 1 sample_cache_1 ∧
    (∃ t0 r0, lookup_glyph_run sample_cache_1 (1, 0) t0 = some r0) ∧
    (sample_cache_1._glyph_run_lru.access (1, 0)).2 = none ∧
    (∀ t r, ∃ g1 b, store_glyph_run sample_cache_1 (1, 0) t r = some (g1, b) ∧
      g1.deleted = sample_cache_1.deleted ∧
      ∀ s1 t1 x, lookup_glyph_run sample_cache_1 s1 t1 = some x →
        lookup_glyph_run g1 s1 t1 = some x) ∧
    (∀ vs, ∃ g2, store_variants sample_cache_1 (1, 0) vs = some g2 ∧
      g2.deleted = sample_cache_1.deleted ∧
      (∀ s1 t1 x, lookup_glyph_run sample_cache_1 s1 t1 = some x →
        lookup_glyph_run g2 s1 t1 = some x) ∧
      ∀ v ∈ vs, ∃ x, lookup_glyph_run g2 (1, 0) v.1 = some x) ∧
    (store_variants sample_cache_1 (1, 0) sample_variants).map
        (fun g2 => (lookup_glyph_run g2 (1, 0) (0, 0), lookup_glyph_run g2 (1, 0) (1, 1),
          lookup_glyph_run g2 (1, 0) (2, 2), lookup_glyph_run g2 (1, 0) (3, 3)))
      = some (some 101, some 201, some 202, some 203) :=
  ⟨sample_cache_1_reachable, ⟨(0, 0), 101, by decide⟩,
    (store_tracked_string_evicts_nothing 1 sample_cache_1 (1, 0) sample_cache_1_reachable
      ⟨(0, 0), 101, by decide⟩).1,
    (store_tracked_string_evicts_nothing 1 sample_cache_1 (1, 0) sample_cache_1_reachable
      ⟨(0, 0), 101, by decide⟩).2.1,
    (store_tracked_string_evicts_nothing 1 sample_cache_1 (1, 0) sample_cache_1_reachable
      ⟨(0, 0), 101, by decide⟩).2.2,
    by decide⟩

/-! ## C17: the run store and the LRU index stay consistent -/

/-- C17: every sequence of `store_glyph_run` calls from the empty cache returns, for every
capacity `C`, and in the state it reaches the keys of the run store are exactly the string ids
tracked by the LRU index and every stored trait map is non-empty; consequently, whenever the LRU
index reports an evicted id for a further offer, that id is a key of the run store, so the
assertion of the eviction branch holds and the further `store_glyph_run` returns. -/
theorem store_lru_consistent (C : Nat) (l : List (string_id_type × uint128_t × glyph_run)) :
    ∃ g flags, store_calls (glyph_cache.create C) l = some (g, flags) ∧
      (∀ s, s ∈ g._glyph_run_lru._access_list ↔ map_find g._glyph_run_store s ≠ none) ∧
      (∀ s m, map_find g._glyph_run_store s = some m → m ≠ []) ∧
      (∀ s e, (g._glyph_run_lru.access s).2 = some e →
        map_find g._glyph_run_store e ≠ none) ∧
      (∀ s t r, ∃ g1 b, store_glyph_run g s t r = some (g1, b)) := by
  obtain ⟨g, flags, hcalls, hr, -⟩ := store_calls_total l (glyph_cache.create C) Reachable.create
  refine ⟨g, flags, hcalls, hr.inv.keys, hr.inv.nonempty, ?_, store_glyph_run_total hr⟩
  intro s e he
  obtain ⟨-, -, hlast, -⟩ := access_evicts he
  exact (hr.inv.keys e).mp (List.mem_of_getLast?_eq_some hlast)

theorem store_lru_consistent_witness :
    ∃ g flags, store_calls (glyph_cache.create 1) sample_stores = some (g, flags) ∧
      (∀ s, s ∈ g._glyph_run_lru._access_list ↔ map_find g._glyph_run_store s ≠ none) ∧
      (∀ s m, map_find g._glyph_run_store s = some m → m ≠ []) ∧
      (∀ s e, (g._glyph_run_lru.access s).2 = some e →
        map_find g._glyph_run_store e ≠ none) ∧
      (∀ s t r, ∃ g1 b, store_glyph_run g s t r = some (g1, b)) :=
  store_lru_consistent 1 sample_stores

/-! ## C18: a rejected duplicate store refreshes recency -/

/-- C18: in every reachable state of capacity `C ≥ 2` whose LRU index is full and whose least
recently offered string is `s` (so that a store of an untracked string `u` would now evict `s`),
a `store_glyph_run(s, t, r2)` on a present key `(s, t)` returns false and changes no lookup, and
yet it refreshes the recency of `s`: the next store, of the untracked string `u`, returns true
and evicts a string `e` other than `s`, and every run stored under `s` remains retrievable. -/
theorem duplicate_store_refreshes_recency (C : Nat) (g : glyph_cache) (s u : string_id_type)
    (t tu : uint128_t) (r1 r2 ru : glyph_run) (hr : Reachable C g) (hC : 2 ≤ C)
    (hfull : g._glyph_run_lru._access_list.length = C)
    (hlast : g._glyph_run_lru._access_list.getLast? = some s)
    (hdup : lookup_glyph_run g s t = some r1)
    (hu : u ∉ g._glyph_run_lru._access_list) :
    (g._glyph_run_lru.access u).2 = some s ∧
    ∃ g1 g2 e,
      store_glyph_run g s t r2 = some (g1, false) ∧
      (∀ s1 t1, lookup_glyph_run g1 s1 t1 = lookup_glyph_run g s1 t1) ∧
      store_glyph_run g1 u tu ru = some (g2, true) ∧
      (g1._glyph_run_lru.access u).2 = some e ∧
      e ≠ s ∧
      (∀ t1, lookup_glyph_run g2 e t1 = none) ∧
      (∀ t1, lookup_glyph_run g2 s t1 = lookup_glyph_run g s t1) ∧
      lookup_glyph_run g2 s t = some r1 := by
  have hinv := hr.inv
  have hs : s ∈ g._glyph_run_lru._access_list := List.mem_of_getLast?_eq_some hlast
  have hsu : s ≠ u := fun hc => hu (hc ▸ hs)
  have hfirst : (g._glyph_run_lru.access u).2 = some s := by
    rw [access_full hu (by rw [hfull, hinv.capacity]) hlast]
  obtain ⟨-, g1, hstore1, hr1, -, hlist1, hlook1⟩ := store_tracked t r2 hr hs
  rw [hdup] at hstore1 hlook1
  have hsame : ∀ s1 t1, lookup_glyph_run g1 s1 t1 = lookup_glyph_run g s1 t1 := by
    intro s1 t1
    rw [hlook1]
    by_cases hc : s1 = s ∧ t1 = t
    · rw [if_pos hc, hc.1, hc.2, hdup]
      rfl
    · rw [if_neg hc]
  have hfull1 : g1._glyph_run_lru._access_list.length = C := by
    rw [hlist1, List.length_cons, List.length_erase_of_mem hs, hfull]
    omega
  have hu1 : u ∉ g1._glyph_run_lru._access_list := by
    rw [hlist1]
    intro hc
    rcases List.mem_cons.mp hc with h | h
    · exact hsu h.symm
    · exact hu ((hinv.nodup.mem_erase_iff.mp h).2)
  obtain ⟨e1, he1, hne1, -⟩ :=
    getLast_after_touch hinv.nodup hlast (by rw [hfull]; exact hC)
  obtain ⟨e, g2, hlast2, hacc2, -, hstore2, -, hgone, -, hkeep⟩ :=
    store_evicts_aux C g1 u tu ru hr1 (by omega) hfull1 hu1
  have hee : e = e1 := by
    rw [hlist1, he1] at hlast2
    exact (Option.some.inj hlast2).symm
  subst hee
  have hs2 : ∀ t1, lookup_glyph_run g2 s t1 = lookup_glyph_run g s t1 := by
    intro t1
    rw [hkeep s t1 (fun hc => hne1 hc.symm) (fun hc => hsu hc.1), hsame]
  exact ⟨hfirst, g1, g2, e, hstore1, hsame, hstore2, hacc2, hne1, hgone, hs2,
    by rw [hs2, hdup]⟩

theorem duplicate_store_refreshes_recency_witness :
    Reachable 2 sample_cache_3 ∧ 2 ≤ 2 ∧
    sample_cache_3._glyph_run_lru._access_list.length = 2 ∧
    sample_cache_3._glyph_run_lru._access_list.getLast? = some (1, 0) ∧
    lookup_glyph_run sample_cache_3 (1, 0) (0, 0) = some 101 ∧
    ((3, 0) : string_id_type) ∉ sample_cache_3._glyph_run_lru._access_list ∧
    (sample_cache_3._glyph_run_lru.access (3, 0)).2 = some (1, 0) ∧
    ∃ g1 g2 e,
      store_glyph_run sample_cache_3 (1, 0) (0, 0) 999 = some (g1, false) ∧
      (∀ s1 t1, lookup_glyph_run g1 s1 t1 = lookup_glyph_run sample_cache_3 s1 t1) ∧
      store_glyph_run g1 (3, 0) (0, 0) 103 = some (g2, true) ∧
      (g1._glyph_run_lru.access (3, 0)).2 = some e ∧
      e ≠ (1, 0) ∧
      (∀ t1, lookup_glyph_run g2 e t1 = none) ∧
      (∀ t1, lookup_glyph_run g2 (1, 0) t1 = lookup_glyph_run sample_cache_3 (1, 0) t1) ∧
      lookup_glyph_run g2 (1, 0) (0, 0) = some 101 :=
  ⟨sample_cache_3_reachable, by decide, by decide, by decide, by decide, by decide,
    duplicate_store_refreshes_recency 2 sample_cache_3 (1, 0) (3, 0) (0, 0) (0, 0) 101 999 103
      sample_cache_3_reachable (by decide) (by decide) (by decide) (by decide) (by decide)⟩

end gdipp
